import Mathlib

set_option autoImplicit false

/-!
Verification of the generation-queue / protocol-consumption engine of the
CozyApp desktop client.  The definitions below are a shallow embedding of
`src/pages/generate.py` (the current revision of the generate page):

* `J`                — JSON-ish values (workflow node inputs, event payloads);
* `topoSort`         — the `_topo_sort` method (fueled depth-first post-order);
* `takeNextPending`, `processedIds` — the queue scan of `_process_queue`;
* `step` / `runLoop` / `runSession` — the WebSocket receive loop and the
  surrounding try/except/finally of `_generate_logic`.

Machine arithmetic is modelled with `Nat`/`Int`/`Rat` (Python integers are
unbounded; Python's true division on the integer payloads that occur here is
exact, so `Rat` is a faithful model of the reported fractions).
-/

namespace CozyApp

/-- JSON values as they appear in workflow node inputs and in decoded text
events.  This models the integer fragment of JSON that the generate page
actually traffics in. -/
inductive J where
  | null
  | bool (b : Bool)
  | int (n : Int)
  | str (s : String)
  | arr (xs : List J)
  | obj (fields : List (String × J))

mutual

/-- Structural equality of JSON values: the model of Python `==` on the
data the event loop compares (`msg["type"] == "executing"`,
`msg_pid == prompt_id`, ...). -/
def J.beq : J → J → Bool
  | .null, .null => true
  | .bool a, .bool b => a == b
  | .int a, .int b => a == b
  | .str a, .str b => a == b
  | .arr xs, .arr ys => J.beqList xs ys
  | .obj fs, .obj gs => J.beqFields fs gs
  | _, _ => false

def J.beqList : List J → List J → Bool
  | [], [] => true
  | x :: xs, y :: ys => J.beq x y && J.beqList xs ys
  | _, _ => false

def J.beqFields : List (String × J) → List (String × J) → Bool
  | [], [] => true
  | (k, v) :: fs, (l, w) :: gs => k == l && J.beq v w && J.beqFields fs gs
  | _, _ => false

end

instance : BEq J := ⟨J.beq⟩

mutual

/-- Python `repr` of a JSON-ish value (used by `str` on containers).
Restriction: nested strings are always single-quoted and never escaped,
whereas Python `repr` switches to double quotes for a string containing a
single quote and escapes backslashes and control characters; the sole
call site is `pyStr` (`str(val[0])` in `_topo_sort`), which takes this
path only for non-string reference heads. -/
def pyRepr : J → String
  | .null => "None"
  | .bool b => if b then "True" else "False"
  | .int n => toString n
  | .str s => "\x27" ++ s ++ "\x27"
  | .arr xs => "[" ++ String.intercalate ", " (pyReprList xs) ++ "]"
  | .obj fs => "\x7b" ++ String.intercalate ", " (pyReprFields fs) ++ "\x7d"

def pyReprList : List J → List String
  | [] => []
  | x :: xs => pyRepr x :: pyReprList xs

def pyReprFields : List (String × J) → List String
  | [] => []
  | (k, v) :: fs => ("\x27" ++ k ++ "\x27: " ++ pyRepr v) :: pyReprFields fs

end

/-- Python `str()` of a JSON-ish value: identity on strings, `repr`-like
rendering otherwise.  `_topo_sort` applies this to the first element of a
2-element input reference (`parent = str(val[0])`). -/
def pyStr : J → String
  | .str s => s
  | v => pyRepr v

/-- One workflow node: `{"class_type": ..., "inputs": {...}}`.  A missing
`class_type` key is modelled as `none` (the code reads it with
`.get("class_type", "Unknown")`); a missing `inputs` key behaves like the
empty mapping (`.get("inputs", {})`). -/
structure WNode where
  class_type : Option String
  inputs : List (String × J)

/-- A workflow graph: an insertion-ordered mapping from node id to node,
as a Python `dict` is.  Keys are pairwise distinct in any graph that came
from a real `dict`; theorems take that `Nodup` hypothesis where they need
it. -/
abbrev Graph := List (String × WNode)

/-- The node ids of a graph, in insertion order. -/
def keys (g : Graph) : List String := g.map Prod.fst

/-- The dependency list of one node, read off its inputs exactly as
`_topo_sort` builds `deps[nid]`: every input value that is a 2-element list
whose stringified first element is a key of the same graph contributes that
parent id; anything else (scalars, dangling references) contributes
nothing.  Python stores these in a `set`; we keep the input-order list —
`visit` is idempotent, so duplicates and ordering of this collection do not
affect any property stated below. -/
def deps (g : Graph) (nid : String) : List String :=
  match g.lookup nid with
  | none => []
  | some node =>
    node.inputs.filterMap fun kv =>
      match kv.2 with
      | .arr [a, _] =>
        let parent := pyStr a
        if parent ∈ keys g then some parent else none
      | _ => none

/-- The recursive `visit` of `_topo_sort`, with explicit fuel standing in
for the call stack.  State is `(visited, order)`.  A node already visited
is skipped; otherwise it is marked visited on entry, its dependencies are
visited, and it is appended to the order.  `topoSort` always supplies
enough fuel for the zero-fuel branch to be unreachable. -/
def visitF (g : Graph) : Nat → String → List String × List String → List String × List String
  | 0, _, st => st
  | fuel + 1, nid, (vis, ord) =>
    if nid ∈ vis then (vis, ord)
    else
      let st2 := (deps g nid).foldl (fun st p => visitF g fuel p st) (nid :: vis, ord)
      (st2.1, st2.2 ++ [nid])

/-- `_topo_sort`: visit every node in insertion order, returning the
accumulated post-order. -/
def topoSort (g : Graph) : List String :=
  ((keys g).foldl (fun st nid => visitF g (g.length + 1) nid st) ([], [])).2

/-! ## Dependency relation and traversal invariants -/

/-- `a` depends on `b`: an edge of the traversal. -/
def depRel (g : Graph) (a b : String) : Prop := b ∈ deps g a

/-- No node reaches itself through the dependency edges. -/
def AcyclicDeps (g : Graph) : Prop := ∀ n, ¬ Relation.TransGen (depRel g) n n

/-- Every dependency of an emitted node has been emitted. -/
def DepClosed (g : Graph) (ord : List String) : Prop :=
  ∀ a ∈ ord, ∀ p ∈ deps g a, p ∈ ord

/-- No dependency of an emitted node appears strictly after it. -/
def DepPW (g : Graph) (ord : List String) : Prop :=
  ord.Pairwise fun a b => b ∉ deps g a

/-- How many keys of the graph are not yet visited. -/
def unvisited (g : Graph) (vis : List String) : Nat :=
  ((keys g).toFinset \ vis.toFinset).card

/-- The visited/order state only ever grows, new order entries are fresh
keys, every visited node is old or emitted, and `Nodup`/containment of
the order are preserved: the step relation of one `visit` call. -/
def Ext (g : Graph) (st st' : List String × List String) : Prop :=
  st.1 ⊆ st'.1 ∧
  (∃ l, st'.2 = st.2 ++ l ∧ ∀ x ∈ l, x ∉ st.1 ∧ x ∈ keys g) ∧
  (∀ x ∈ st'.1, x ∈ st.1 ∨ x ∈ st'.2) ∧
  ((st.2.Nodup ∧ ∀ x ∈ st.2, x ∈ st.1) → (st'.2.Nodup ∧ ∀ x ∈ st'.2, x ∈ st'.1))

/-! ## The job queue (`_process_queue`, `_cancel_job`) -/

inductive JobStatus where
  | pending
  | processing
  | cancelled
  deriving DecidableEq, Repr

/-- One queued job.  `id` stands for the `uuid4` string; two distinct jobs
never share an id. -/
structure QJob where
  id : Nat
  status : JobStatus
  deriving DecidableEq, Repr

/-- The take-next step of `_process_queue` (lines 1230-1240): under the
queue lock, scan `job_list` in insertion order for the first job whose
status is `pending`, flip exactly that job to `processing`, and return it
together with the updated list; return `none` when no pending job remains
(the worker loop then exits). -/
def takeNextPending : List QJob → Option (QJob × List QJob)
  | [] => none
  | j :: rest =>
    if j.status = .pending then
      some ({ j with status := .processing }, { j with status := .processing } :: rest)
    else
      match takeNextPending rest with
      | none => none
      | some (t, rest') => some (t, j :: rest')

/-- One worker-loop pass, fueled by the queue length: take the next
pending job, process it (the processing outcome is irrelevant to the
loop's control flow — errors are caught and logged), remove it from the
list (`job_list.remove(job)`), and continue; stop when `takeNextPending`
yields nothing.  Returns the ids in processing order. -/
def workerRunF : Nat → List QJob → List Nat
  | 0, _ => []
  | fuel + 1, jobs =>
    match takeNextPending jobs with
    | none => []
    | some (j, jobs') => j.id :: workerRunF fuel (jobs'.erase j)

/-- The full worker loop over a queue snapshot. -/
def workerRun (jobs : List QJob) : List Nat := workerRunF jobs.length jobs

/-! ## The protocol session (`_generate_logic`)

Events received from the WebSocket are either binary frames or text.  We
model a received text event by the result of `json.loads` on it: `none`
stands for text that is not valid JSON (where `json.loads` raises). -/

inductive Incoming where
  | binary (bytes : List Nat)
  | text (parsed : Option J)

/-- Python exceptions the receive loop can raise. -/
inductive PyErr where
  | malformedJson   -- json.loads failure
  | keyError        -- d[k] with k missing
  | typeError       -- subscripting / dividing / hashing the wrong type
  | attrError       -- .get / .items on a non-dict
  | zeroDiv         -- ZeroDivisionError
  | indexError      -- [0] on an empty list
  deriving DecidableEq, Repr

/-- Python subscript `v[k]` with a string key: key lookup on a dict,
`KeyError` when missing, `TypeError` on any non-dict value. -/
def getKey : J → String → Except PyErr J
  | .obj fs, k => match fs.lookup k with
    | some v => .ok v
    | none => .error .keyError
  | _, _ => .error .typeError

/-- Python `d.get(k)` for a value already known to be a dict (the call
sites only reach it after a successful subscript on the same value);
yields `none` when the key is absent. -/
def dictGet : J → String → Option J
  | .obj fs, k => fs.lookup k
  | _, _ => none

/-- Python `==` on optional JSON values, `none` standing for Python
`None` (as produced by `dict.get` on a missing key). -/
def pyOEq : Option J → Option J → Bool
  | none, none => true
  | some a, some b => J.beq a b
  | _, _ => false

/-- `json.loads` decodes JSON `null` to Python `None`, which is also the
default `dict.get` supplies for a missing key — an explicit `null` field
and an absent one are the same Python value.  `pyNorm` folds the two
representations together before a field value is compared against `None`
or against another field value. -/
def pyNorm : Option J → Option J
  | some .null => none
  | o => o

/-- Python `node_id is None`. -/
def J.isNull : J → Bool
  | .null => true
  | _ => false

/-- `node_index.get(node_id, current_index)` where
`node_index = {nid: i for i, nid in enumerate(exec_order)}`: string keys
are looked up by position in the execution order, other hashable values
are simply absent (default), and unhashable values (lists, dicts) raise
`TypeError`. -/
def nodeIndexGet (order : List String) (node : J) (cur : Nat) : Except PyErr Nat :=
  match node with
  | .str s => .ok ((order.indexOf? s).getD cur)
  | .arr _ => .error .typeError
  | .obj _ => .error .typeError
  | _ => .ok cur

/-- `workflow_data.get(node_id, {}).get("class_type", "Unknown")`. -/
def classOf (g : Graph) (node : J) : Except PyErr String :=
  match node with
  | .str s => .ok (((g.lookup s).bind (·.class_type)).getD "Unknown")
  | .arr _ => .error .typeError
  | .obj _ => .error .typeError
  | _ => .ok "Unknown"

/-- Python true division on the numeric payloads of a `progress` event
(`bool` is an `int` subclass); anything else raises `TypeError` at the
division. -/
def toNum : J → Except PyErr Int
  | .int n => .ok n
  | .bool b => .ok (if b then 1 else 0)
  | _ => .error .typeError

/-- Python `"images" in v`: key containment for dicts, element containment
for lists, substring test for strings, `TypeError` otherwise. -/
def containsImages : J → Except PyErr Bool
  | .obj fs => .ok (fs.any fun kv => kv.1 == "images")
  | .arr xs => .ok (xs.any fun x => J.beq x (.str "images"))
  | .str s => .ok (decide (2 ≤ (s.splitOn "images").length))
  | _ => .error .typeError

/-- Python `v[0]`. -/
def index0 : J → Except PyErr J
  | .arr (x :: _) => .ok x
  | .arr [] => .error .indexError
  | .str s => if s.isEmpty then .error .indexError else .ok (.str (s.take 1))
  | _ => .error .typeError

/-- Callbacks the session hands to the UI thread (`GLib.idle_add`), in
emission order. -/
inductive CB where
  | preview (bytes : List Nat)      -- _on_image_update with a binary frame (header stripped)
  | previewFetch (ref : J)          -- _on_image_update with bytes fetched from /view for ref
  | setLabel (cls : Option String)  -- set_current_node
  | setFraction (q : ℚ)             -- progress_bar.set_fraction
  | final (ref : J)                 -- _on_image_final
  | closeWs                         -- ws.close()

/-- Per-session context fixed before the receive loop starts. -/
structure SessionCtx where
  workflow : Graph
  prompt_id : Option J   -- resp.json().get("prompt_id")

/-- `exec_order = self._topo_sort(workflow_data)`. -/
def SessionCtx.execOrder (c : SessionCtx) : List String := topoSort c.workflow

/-- `total_nodes = len(exec_order)`. -/
def SessionCtx.total (c : SessionCtx) : Nat := (topoSort c.workflow).length

/-- Result of handling one received event: continue the loop with a new
`current_index` having emitted `outs`, break out of the loop, or raise
(the callbacks already emitted before the raise are recorded). -/
inductive StepRes where
  | cont (ci : Nat) (outs : List CB)
  | brk
  | err (e : PyErr) (outs : List CB)

/-- The `executing` branch (lines 1323-1345).  Mirrors the code: break
only on `node_id is None and msg_pid == prompt_id`; skip entirely when
`msg_pid not in (prompt_id, None)` — a missing `prompt_id` key and an
explicit JSON `null` both decode to Python `None`, which the membership
test tolerates, so such events fall through and are processed; otherwise
update `current_index`, report the node's class as label, then report
`current_index / total_nodes`. -/
def handleExecuting (c : SessionCtx) (ci : Nat) (v : J) : StepRes :=
  match getKey v "data" with
  | .error e => .err e []
  | .ok data =>
    match getKey data "node" with
    | .error e => .err e []
    | .ok node =>
      let msg_pid := pyNorm (dictGet data "prompt_id")
      if node.isNull && pyOEq msg_pid (pyNorm c.prompt_id) then .brk
      else if !pyOEq msg_pid (pyNorm c.prompt_id) && !msg_pid.isNone then .cont ci []
      else
        match nodeIndexGet c.execOrder node ci with
        | .error e => .err e []
        | .ok ci' =>
          match classOf c.workflow node with
          | .error e => .err e []
          | .ok cls =>
            if c.total = 0 then .err .zeroDiv [.setLabel (some cls)]
            else .cont ci' [.setLabel (some cls), .setFraction ((ci' : ℚ) / (c.total : ℚ))]

/-- The `progress` branch (lines 1347-1357): `value / max` first (so a
zero `max` raises before anything is reported), then
`current_index/total + node_progress/total`. -/
def handleProgress (c : SessionCtx) (ci : Nat) (v : J) : StepRes :=
  match getKey v "data" with
  | .error e => .err e []
  | .ok data =>
    match getKey data "value" with
    | .error e => .err e []
    | .ok jv =>
      match getKey data "max" with
      | .error e => .err e []
      | .ok jm =>
        match toNum jv, toNum jm with
        | .error e, _ => .err e []
        | _, .error e => .err e []
        | .ok nv, .ok nm =>
          if nm = 0 then .err .zeroDiv []
          else
            let node_progress : ℚ := (nv : ℚ) / (nm : ℚ)
            if c.total = 0 then .err .zeroDiv []
            else .cont ci [.setFraction ((ci : ℚ) / (c.total : ℚ) + node_progress / (c.total : ℚ))]

/-- The `executed` branch (lines 1359-1373): snap the bar to
`(current_index + 1) / total_nodes` (the division is evaluated before the
callback is scheduled), then fetch and forward the first image of the
output payload when one is present. -/
def handleExecuted (c : SessionCtx) (ci : Nat) (v : J) : StepRes :=
  if c.total = 0 then .err .zeroDiv []
  else
    let outs : List CB := [.setFraction (((ci : ℚ) + 1) / (c.total : ℚ))]
    match getKey v "data" with
    | .error e => .err e outs
    | .ok data =>
      match getKey data "output" with
      | .error e => .err e outs
      | .ok out =>
        match containsImages out with
        | .error e => .err e outs
        | .ok b =>
          if b then
            match getKey out "images" with
            | .error e => .err e outs
            | .ok imgs =>
              match index0 imgs with
              | .error e => .err e outs
              | .ok img => .cont ci (outs ++ [.previewFetch img])
          else .cont ci outs

/-- One iteration of the receive loop (lines 1315-1373): binary frames
feed `_on_image_update` with the 8-byte header stripped; text that fails
`json.loads` raises; a decoded message is dispatched on its `type` field,
and a message whose type matches none of the three handled kinds falls
through the `elif` chain and is skipped. -/
def step (c : SessionCtx) (ci : Nat) : Incoming → StepRes
  | .binary bs => .cont ci [.preview (bs.drop 8)]
  | .text none => .err .malformedJson []
  | .text (some v) =>
    match getKey v "type" with
    | .error e => .err e []
    | .ok t =>
      if J.beq t (.str "executing") then handleExecuting c ci v
      else if J.beq t (.str "progress") then handleProgress c ci v
      else if J.beq t (.str "executed") then handleExecuted c ci v
      else .cont ci []

/-- How the receive loop ended: `completed` via the terminal break (then
history is fetched), `raised` via an exception, or `ranOut` when the
modelled event list is exhausted while the real loop would still be
blocked in `ws.recv()`. -/
inductive LoopEnd where
  | completed (ci : Nat)
  | raised (e : PyErr) (ci : Nat)
  | ranOut (ci : Nat)

/-- The receive loop: consume events in order, accumulating the emitted
callbacks. -/
def runLoop (c : SessionCtx) : Nat → List Incoming → List CB × LoopEnd
  | ci, [] => ([], .ranOut ci)
  | ci, e :: rest =>
    match step c ci e with
    | .cont ci' outs =>
      let r := runLoop c ci' rest
      (outs ++ r.1, r.2)
    | .brk => ([], .completed ci)
    | .err er outs => (outs, .raised er ci)

/-- `"SaveFullPipe"` — the class of the designated save node. -/
def SAVE_NODE_CLASS : String := "SaveFullPipe"

/-- `d.get(key, default)` where the key is an arbitrary Python value:
`AttributeError` when `d` is not a dict, `TypeError` when the key is
unhashable, otherwise lookup with default (non-string hashable keys are
absent from these string-keyed dicts). -/
def pyGetDefault (v : J) (key : Option J) (dflt : J) : Except PyErr J :=
  match v with
  | .obj fs =>
    match key with
    | some (.str s) => .ok ((fs.lookup s).getD dflt)
    | some (.arr _) => .error .typeError
    | some (.obj _) => .error .typeError
    | _ => .ok dflt
  | _ => .error .attrError

/-- The history scan (lines 1375-1398): `history = resp.json().get(prompt_id, {})`,
then walk `history.get("outputs", {}).items()` for the first node whose
class in the workflow is the save node's, and emit its first image via
`_on_image_final`; no such node means no final callback. -/
def histScan (wf : Graph) (pid : Option J) (h : J) : Except PyErr (List CB) :=
  match pyGetDefault h pid (.obj []) with
  | .error e => .error e
  | .ok hist =>
    match pyGetDefault hist (some (.str "outputs")) (.obj []) with
    | .error e => .error e
    | .ok outputs =>
      match outputs with
      | .obj fs =>
        match fs.find? (fun kv => ((wf.lookup kv.1).bind (·.class_type)) = some SAVE_NODE_CLASS) with
        | none => .ok []
        | some (_, nodeOutput) =>
          match getKey nodeOutput "images" with
          | .error e => .error e
          | .ok imgs =>
            match index0 imgs with
            | .error e => .error e
            | .ok img => .ok [.final img]
      | _ => .error .attrError

/-- Everything `_generate_logic` consumes that comes from outside the
process: whether `ws.connect` succeeds, the outcome of the submission
POST (`.error` models a network/HTTP exception, `.ok` carries the decoded
response JSON), the event stream, the history response, and the state of
the stop flag when the `except` arm inspects it. -/
structure SessionInput where
  connectOk : Bool
  postResult : Except Unit J
  events : List Incoming
  histResult : Except Unit J
  stopRequested : Bool

/-- Which exception path (if any) a session ended on. -/
inductive SessionErr where
  | connect
  | post
  | py (e : PyErr)
  | history
  deriving DecidableEq, Repr

/-- How `_generate_logic` returned.  `raised e logged` is the `except`
arm: the error is logged exactly when no stop was requested.  `blocked`
means the modelled event list ran out while the loop was still waiting in
`ws.recv()` — the session has not exited. -/
inductive SessionOutcome where
  | blocked
  | raised (e : SessionErr) (logged : Bool)
  | completedOk

/-- The `finally` block (lines 1405-1413): close the socket, reset the
bar to 0, reset the current-node label to idle. -/
def cleanupCBs : List CB := [.closeWs, .setFraction 0, .setLabel none]

/-- `_generate_logic` end to end: connect, POST the graph, read
`prompt_id` out of the response, run the receive loop, fetch and scan the
history; any exception jumps to the `except` arm; the `finally` cleanup
runs on every exit path. -/
def runSession (wf : Graph) (inp : SessionInput) : List CB × SessionOutcome :=
  let lg := !inp.stopRequested
  if !inp.connectOk then (cleanupCBs, .raised .connect lg)
  else
    match inp.postResult with
    | .error _ => (cleanupCBs, .raised .post lg)
    | .ok resp =>
      match resp with
      | .obj fs =>
        let pid := fs.lookup "prompt_id"   -- resp.json().get("prompt_id")
        let c : SessionCtx := ⟨wf, pid⟩
        match runLoop c 0 inp.events with
        | (outs, .raised e _) => (outs ++ cleanupCBs, .raised (.py e) lg)
        | (outs, .ranOut _) => (outs, .blocked)
        | (outs, .completed _) =>
          match inp.histResult with
          | .error _ => (outs ++ cleanupCBs, .raised .history lg)
          | .ok h =>
            match histScan wf pid h with
            | .error e => (outs ++ cleanupCBs, .raised (.py e) lg)
            | .ok finals => (outs ++ finals ++ cleanupCBs, .completedOk)
      | _ => (cleanupCBs, .raised (.py .attrError) lg)

/-- A two-node demonstration workflow (`B` depends on `A`); its execution
order is `[A, B]` and its total node count is 2. -/
def demoGraph : Graph :=
  [("B", ⟨some "Mid", [("x", .arr [.str "A", .int 0])]⟩),
   ("A", ⟨some "Load", []⟩)]

/-- An `executing` event as the server sends it. -/
def evExecuting (node pid : J) : Incoming :=
  .text (some (.obj [("type", .str "executing"),
                     ("data", .obj [("node", node), ("prompt_id", pid)])]))

/-- A `progress` event as the server sends it. -/
def evProgress (v m : Int) : Incoming :=
  .text (some (.obj [("type", .str "progress"),
                     ("data", .obj [("value", .int v), ("max", .int m)])]))

/-- A `progress` event that additionally carries a prompt id in its
payload (the loop never reads it). -/
def evProgressPid (v m : Int) (pid : J) : Incoming :=
  .text (some (.obj [("type", .str "progress"),
                     ("data", .obj [("value", .int v), ("max", .int m), ("prompt_id", pid)])]))

/-- An `executed` event with the given output payload. -/
def evExecutedOut (out : J) : Incoming :=
  .text (some (.obj [("type", .str "executed"), ("data", .obj [("output", out)])]))

/-- An `executed` event that additionally carries a prompt id (the loop
never reads it). -/
def evExecutedPid (out pid : J) : Incoming :=
  .text (some (.obj [("type", .str "executed"),
                     ("data", .obj [("output", out), ("prompt_id", pid)])]))

/-- The fractions reported to the progress bar, in emission order. -/
def fractionsOf (outs : List CB) : List ℚ :=
  outs.filterMap fun o =>
    match o with
    | .setFraction q => some q
    | _ => none

/-- Whether an event is safe from the `value / max` zero division: it is
not a `progress` event whose `max` field is numerically zero. -/
def progressMaxOk (e : Incoming) : Bool :=
  match e with
  | .text (some v) =>
    match getKey v "type" with
    | .ok t =>
      if J.beq t (.str "progress") then
        match getKey v "data" with
        | .ok data =>
          match getKey data "max" with
          | .ok jm =>
            match toNum jm with
            | .ok nm => decide (nm ≠ 0)
            | .error _ => true
          | .error _ => true
        | .error _ => true
      else true
    | .error _ => true
  | _ => true

/-- Where the progress bar stands within the current node: nothing
reported yet, snapped to the node start by `executing`, interpolated to
`q = value/max` by `progress`, or snapped past the node by `executed`. -/
inductive Phase where
  | fresh
  | atNode
  | inNode (q : ℚ)
  | nodeDone

/-- The last fraction reported on reaching this phase (`none` before the
first report). -/
def phaseBound (T : ℚ) (ci : Nat) : Phase → Option ℚ
  | .fresh => none
  | .atNode => some ((ci : ℚ) / T)
  | .inNode q => some ((ci : ℚ) / T + q / T)
  | .nodeDone => some (((ci : ℚ) + 1) / T)

/-- In-node interpolations stay inside the node's slice. -/
def PhaseOK : Phase → Prop
  | .inNode q => 0 ≤ q ∧ q ≤ 1
  | _ => True

/-- Position constraint an `executing` event must satisfy to keep the bar
from moving backwards. -/
def phaseIdxOK (ci : Nat) (ph : Phase) (j : Nat) : Prop :=
  match ph with
  | .fresh => True
  | .atNode => ci ≤ j
  | .inNode _ => ci + 1 ≤ j
  | .nodeDone => ci + 1 ≤ j

/-- Interpolation constraint a `progress` event must satisfy. -/
def phaseProgOK (ph : Phase) (q' : ℚ) : Prop :=
  match ph with
  | .fresh => True
  | .atNode => True
  | .inNode q => q ≤ q'
  | .nodeDone => 1 ≤ q'

/-- Protocol-ordered event streams for a session with server job id
`sid`, relative to the session's current index and phase.  Binary frames,
stale `executing` events (carrying a present, non-null prompt id that
differs from `sid` — the only kind the loop skips), unknown event types,
and the terminal event may appear anywhere; matched `executing` events
name known nodes at positions compatible with the phase; `progress`
payloads are within-node and non-decreasing; `executed` events close the
current node. -/
inductive Adm (c : SessionCtx) (sid : String) : Nat → Phase → List Incoming → Prop where
  | nil (ci : Nat) (ph : Phase) : Adm c sid ci ph []
  | binary (ci : Nat) (ph : Phase) (bs : List Nat) {rest : List Incoming} :
      Adm c sid ci ph rest → Adm c sid ci ph (.binary bs :: rest)
  | unknown (ci : Nat) (ph : Phase) {v t : J} {rest : List Incoming} :
      getKey v "type" = .ok t →
      J.beq t (.str "executing") = false →
      J.beq t (.str "progress") = false →
      J.beq t (.str "executed") = false →
      Adm c sid ci ph rest → Adm c sid ci ph (.text (some v) :: rest)
  | stale (ci : Nat) (ph : Phase) (node p : J) {rest : List Incoming} :
      p.isNull = false →
      J.beq p (.str sid) = false →
      Adm c sid ci ph rest → Adm c sid ci ph (evExecuting node p :: rest)
  | terminal (ci : Nat) (ph : Phase) (rest : List Incoming) :
      Adm c sid ci ph (evExecuting .null (.str sid) :: rest)
  | exec (ci : Nat) (ph : Phase) (s : String) (j : Nat) {rest : List Incoming} :
      (topoSort c.workflow).indexOf? s = some j →
      phaseIdxOK ci ph j →
      Adm c sid j .atNode rest →
      Adm c sid ci ph (evExecuting (.str s) (.str sid) :: rest)
  | prog (ci : Nat) (ph : Phase) (v m : Int) {rest : List Incoming} :
      0 ≤ v → v ≤ m → 0 < m →
      phaseProgOK ph ((v : ℚ) / (m : ℚ)) →
      Adm c sid ci (.inNode ((v : ℚ) / (m : ℚ))) rest →
      Adm c sid ci ph (evProgress v m :: rest)
  | doneNoImg (ci : Nat) (ph : Phase) {rest : List Incoming} :
      Adm c sid ci .nodeDone rest →
      Adm c sid ci ph (evExecutedOut (.obj []) :: rest)
  | doneImg (ci : Nat) (ph : Phase) (img : J) (imgs : List J) {rest : List Incoming} :
      Adm c sid ci .nodeDone rest →
      Adm c sid ci ph (evExecutedOut (.obj [("images", .arr (img :: imgs))]) :: rest)

/-! ## Queue lemmas -/

/-- The pending jobs of a queue snapshot, in insertion order, by id. -/
def pendingIds (jobs : List QJob) : List Nat :=
  (jobs.filter fun j => j.status = .pending).map QJob.id

lemma takeNextPending_eq_none {jobs : List QJob} :
    takeNextPending jobs = none ↔ ∀ j ∈ jobs, j.status ≠ .pending := by
  induction jobs with
  | nil => simp [takeNextPending]
  | cons j rest ih =>
    by_cases hj : j.status = .pending
    · simp only [takeNextPending, if_pos hj]
      constructor
      · intro h; cases h
      · intro h; exact absurd hj (h j (by simp))
    · simp only [takeNextPending, if_neg hj]
      cases htl : takeNextPending rest with
      | none =>
        constructor
        · intro _ x hx
          rcases List.mem_cons.1 hx with rfl | hx'
          · exact hj
          · exact ih.1 htl x hx'
        · intro _; rfl
      | some p =>
        constructor
        · intro h; cases h
        · intro h
          exfalso
          have hn : takeNextPending rest = none :=
            ih.2 fun x hx => h x (List.mem_cons_of_mem _ hx)
          rw [htl] at hn
          cases hn

lemma takeNextPending_eq_some {jobs : List QJob} {j : QJob} {jobs' : List QJob}
    (h : takeNextPending jobs = some (j, jobs')) :
    ∃ pre j₀ post, jobs = pre ++ j₀ :: post ∧ (∀ x ∈ pre, x.status ≠ .pending) ∧
      j₀.status = .pending ∧ j = { j₀ with status := .processing } ∧
      jobs' = pre ++ j :: post := by
  induction jobs generalizing j jobs' with
  | nil => simp [takeNextPending] at h
  | cons a rest ih =>
    by_cases ha : a.status = .pending
    · simp only [takeNextPending, if_pos ha, Option.some.injEq, Prod.mk.injEq] at h
      exact ⟨[], a, rest, by simp, by simp, ha, h.1.symm, by simp [← h.1, ← h.2]⟩
    · simp only [takeNextPending, if_neg ha] at h
      cases htl : takeNextPending rest with
      | none => simp [htl] at h
      | some p =>
        rcases p with ⟨t, rest'⟩
        simp only [htl, Option.some.injEq, Prod.mk.injEq] at h
        obtain ⟨rfl, rfl⟩ := h
        obtain ⟨pre, j₀, post, hsplit, hpre, hp, hflip, hrest⟩ := ih htl
        exact ⟨a :: pre, j₀, post, by simp [hsplit], by
          intro x hx
          rcases List.mem_cons.1 hx with rfl | hx'
          · exact ha
          · exact hpre x hx', hp, hflip, by simp [hrest]⟩

lemma workerRunF_pendingIds :
    ∀ (fuel : Nat) (jobs : List QJob), jobs.length ≤ fuel →
      (jobs.map QJob.id).Nodup → workerRunF fuel jobs = pendingIds jobs := by
  intro fuel
  induction fuel with
  | zero =>
    intro jobs hlen _
    have : jobs = [] := List.eq_nil_of_length_eq_zero (Nat.le_zero.1 hlen)
    subst this; rfl
  | succ fuel ih =>
    intro jobs hlen hnd
    cases htake : takeNextPending jobs with
    | none =>
      have hall := takeNextPending_eq_none.1 htake
      have : pendingIds jobs = [] := by
        unfold pendingIds
        rw [List.filter_eq_nil_iff.2 (by intro j hj; simpa using hall j hj)]
        rfl
      simp [workerRunF, htake, this]
    | some p =>
      rcases p with ⟨j, jobs'⟩
      obtain ⟨pre, j₀, post, rfl, hpre, hp, rfl, rfl⟩ := takeNextPending_eq_some htake
      have hid_nodup : ((pre ++ j₀ :: post).map QJob.id).Nodup := hnd
      rw [List.map_append, List.map_cons] at hid_nodup
      have hj_not_pre : { j₀ with status := JobStatus.processing } ∉ pre := by
        intro hmem
        have : j₀.id ∈ pre.map QJob.id := List.mem_map.2 ⟨_, hmem, rfl⟩
        have hdisj := (List.nodup_append.1 hid_nodup).2.2
        exact hdisj this (by simp)
      have herase :
          (pre ++ { j₀ with status := JobStatus.processing } :: post).erase
              { j₀ with status := JobStatus.processing } = pre ++ post := by
        rw [List.erase_append_right _ hj_not_pre, List.erase_cons_head]
      have hlen' : (pre ++ post).length ≤ fuel := by
        have := hlen
        simp only [List.length_append, List.length_cons] at this ⊢
        omega
      have hnd' : ((pre ++ post).map QJob.id).Nodup := by
        rw [List.map_append]
        rw [List.map_append] at hnd
        exact List.Nodup.sublist
          (List.Sublist.append (List.Sublist.refl _) (by simp)) hnd
      have hrec := ih (pre ++ post) hlen' hnd'
      simp only [workerRunF, htake, herase, hrec]
      unfold pendingIds
      rw [List.filter_append, List.filter_append, List.filter_cons_of_pos (by simpa using hp)]
      rw [List.filter_eq_nil_iff.2 (by intro x hx; simpa using hpre x hx)]
      simp

/-- Claim C4: each take-next step selects the oldest pending job, flips
exactly that job to `processing`, and yields nothing exactly when no
pending job remains; consequently the worker processes jobs in enqueue
order, skipping jobs already marked cancelled. -/
theorem take_next_pending_fifo (jobs : List QJob) :
    (takeNextPending jobs = none ↔ ∀ j ∈ jobs, j.status ≠ .pending) ∧
    (∀ j jobs', takeNextPending jobs = some (j, jobs') →
      ∃ pre j₀ post, jobs = pre ++ j₀ :: post ∧
        (∀ x ∈ pre, x.status ≠ .pending) ∧ j₀.status = .pending ∧
        j = { j₀ with status := .processing } ∧ jobs' = pre ++ j :: post) ∧
    ((jobs.map QJob.id).Nodup → workerRun jobs = pendingIds jobs) :=
  ⟨takeNextPending_eq_none,
   fun _ _ h => takeNextPending_eq_some h,
   fun hnd => workerRunF_pendingIds jobs.length jobs le_rfl hnd⟩

/-- Witness: a queue holding a cancelled job, two pending jobs, and a
processing job is processed pending-first in insertion order. -/
theorem take_next_pending_fifo_witness :
    workerRun [⟨1, .cancelled⟩, ⟨2, .pending⟩, ⟨3, .processing⟩, ⟨4, .pending⟩] = [2, 4] := by
  have h := (take_next_pending_fifo
    [⟨1, .cancelled⟩, ⟨2, .pending⟩, ⟨3, .processing⟩, ⟨4, .pending⟩]).2.2 (by decide)
  rw [h]; decide

/-! ## Canonical protocol events and small inversion lemmas -/

lemma J.beq_str_right {v : J} {s : String} (h : J.beq v (.str s) = true) : v = .str s := by
  cases v with
  | str a => exact congrArg J.str (beq_iff_eq.1 h)
  | null => exact Bool.noConfusion h
  | bool b => exact Bool.noConfusion h
  | int n => exact Bool.noConfusion h
  | arr xs => exact Bool.noConfusion h
  | obj fs => exact Bool.noConfusion h

lemma J.beq_str_refl (s : String) : J.beq (.str s) (.str s) = true := beq_self_eq_true s

lemma pyOEq_some_str_iff {m : Option J} {s : String} :
    pyOEq m (some (.str s)) = true ↔ m = some (.str s) := by
  cases m with
  | none => simp [pyOEq]
  | some v =>
    constructor
    · intro h; exact congrArg some (J.beq_str_right h)
    · intro h
      obtain rfl : v = .str s := by injection h
      exact J.beq_str_refl s

lemma J.isNull_iff {v : J} : v.isNull = true ↔ v = .null := by
  cases v <;> simp [J.isNull]

lemma pyNorm_some {p : J} (h : p.isNull = false) : pyNorm (some p) = some p := by
  cases p <;> simp_all [pyNorm, J.isNull]

lemma pyNorm_some_str_iff {o : Option J} {s : String} :
    pyNorm o = some (.str s) ↔ o = some (.str s) := by
  cases o with
  | none => simp [pyNorm]
  | some x => cases x <;> simp [pyNorm]

lemma J.beq_null_right {v : J} (h : J.beq v .null = true) : v = .null := by
  cases v <;> first | rfl | exact Bool.noConfusion h

lemma pyNorm_pyOEq {a b : Option J} (h : pyOEq a b = true) :
    pyOEq (pyNorm a) (pyNorm b) = true := by
  cases a with
  | none => cases b with
    | none => exact h
    | some y => exact Bool.noConfusion h
  | some x => cases b with
    | none => exact Bool.noConfusion h
    | some y =>
      by_cases hx : x = .null
      · subst hx
        have hy : y = .null := by
          cases y <;> first | rfl | exact Bool.noConfusion h
        subst hy; rfl
      · have hy : y ≠ .null := by
          intro hy; subst hy
          exact hx (J.beq_null_right h)
        have hx' : x.isNull = false := by
          cases x <;> first | exact absurd rfl hx | rfl
        have hy' : y.isNull = false := by
          cases y <;> first | exact absurd rfl hy | rfl
        rw [pyNorm_some hx', pyNorm_some hy']
        exact h

lemma getKey_error_class {v : J} {k : String} {e : PyErr} (h : getKey v k = .error e) :
    e = .keyError ∨ e = .typeError := by
  cases v with
  | obj fs =>
    simp only [getKey] at h
    cases hl : fs.lookup k with
    | some w => rw [hl] at h; cases h
    | none => rw [hl] at h; injection h with h'; exact Or.inl h'.symm
  | null => injection h with h'; exact Or.inr h'.symm
  | bool b => injection h with h'; exact Or.inr h'.symm
  | int n => injection h with h'; exact Or.inr h'.symm
  | str s => injection h with h'; exact Or.inr h'.symm
  | arr xs => injection h with h'; exact Or.inr h'.symm

lemma toNum_error_class {v : J} {e : PyErr} (h : toNum v = .error e) : e = .typeError := by
  cases v <;> first
    | (injection h with h'; exact h'.symm)
    | cases h

lemma nodeIndexGet_error_class {order : List String} {node : J} {cur : Nat} {e : PyErr}
    (h : nodeIndexGet order node cur = .error e) : e = .typeError := by
  cases node <;> first
    | (injection h with h'; exact h'.symm)
    | cases h

lemma classOf_error_class {g : Graph} {node : J} {e : PyErr}
    (h : classOf g node = .error e) : e = .typeError := by
  cases node <;> first
    | (injection h with h'; exact h'.symm)
    | cases h

lemma containsImages_error_class {v : J} {e : PyErr} (h : containsImages v = .error e) :
    e = .typeError := by
  cases v <;> first
    | (injection h with h'; exact h'.symm)
    | cases h

lemma index0_error_class {v : J} {e : PyErr} (h : index0 v = .error e) :
    e = .indexError ∨ e = .typeError := by
  cases v with
  | arr xs =>
    cases xs with
    | nil => injection h with h'; exact Or.inl h'.symm
    | cons x xs => cases h
  | str s =>
    simp only [index0] at h
    by_cases hs : s.isEmpty
    · rw [if_pos hs] at h; injection h with h'; exact Or.inl h'.symm
    · rw [if_neg hs] at h; cases h
  | null => injection h with h'; exact Or.inr h'.symm
  | bool b => injection h with h'; exact Or.inr h'.symm
  | int n => injection h with h'; exact Or.inr h'.symm
  | obj fs => injection h with h'; exact Or.inr h'.symm

lemma handleProgress_ne_brk (c : SessionCtx) (ci : Nat) (v : J) :
    handleProgress c ci v ≠ .brk := by
  intro h
  unfold handleProgress at h
  repeat' split at h
  all_goals exact StepRes.noConfusion h

lemma handleExecuted_ne_brk (c : SessionCtx) (ci : Nat) (v : J) :
    handleExecuted c ci v ≠ .brk := by
  intro h
  unfold handleExecuted at h
  repeat' split at h
  all_goals exact StepRes.noConfusion h

lemma handleExecuting_brk_iff (c : SessionCtx) (ci : Nat) (v : J) :
    handleExecuting c ci v = .brk ↔
      ∃ data, getKey v "data" = .ok data ∧ getKey data "node" = .ok .null ∧
        pyOEq (pyNorm (dictGet data "prompt_id")) (pyNorm c.prompt_id) = true := by
  unfold handleExecuting
  cases hD : getKey v "data" with
  | error e => simp
  | ok data =>
    dsimp only
    cases hN : getKey data "node" with
    | error e => simp [hN]
    | ok node =>
      dsimp only
      by_cases hb : (node.isNull && pyOEq (pyNorm (dictGet data "prompt_id")) (pyNorm c.prompt_id)) = true
      · rw [if_pos hb]
        have hb' := hb
        rw [Bool.and_eq_true] at hb'
        obtain ⟨hnull, hpid⟩ := hb'
        obtain rfl : node = .null := J.isNull_iff.1 hnull
        simp [hN, hpid]
      · rw [if_neg hb]
        constructor
        · intro h
          exfalso
          split at h
          · exact StepRes.noConfusion h
          · repeat' split at h
            all_goals exact StepRes.noConfusion h
        · rintro ⟨data', hD', hN', hpid'⟩
          exfalso
          obtain rfl : data' = data := by injection hD' with h; exact h.symm
          obtain rfl : node = J.null := by
            have h2 := hN'.symm.trans hN
            injection h2 with h3; exact h3.symm
          exact hb (by simp [J.isNull, hpid'])

/-- A stale `executing` event — one carrying a present, non-null prompt
id `p` that Python-compares unequal to the session's — is skipped
wholesale by the `msg_pid not in (prompt_id, None)` guard: no state
change, no callback.  (A null or absent prompt id is Python `None`,
which the guard tolerates — such events are not skipped.) -/
lemma step_stale_executing (c : SessionCtx) (ci : Nat) {v data node p : J}
    (hT : getKey v "type" = .ok (.str "executing"))
    (hD : getKey v "data" = .ok data)
    (hN : getKey data "node" = .ok node)
    (hP : dictGet data "prompt_id" = some p)
    (hpn : p.isNull = false)
    (hpe : pyOEq (some p) (pyNorm c.prompt_id) = false) :
    step c ci (.text (some v)) = .cont ci [] := by
  have hnorm : pyNorm (dictGet data "prompt_id") = some p := by
    rw [hP]; exact pyNorm_some hpn
  simp only [step, hT]
  rw [if_pos (J.beq_str_refl "executing")]
  simp only [handleExecuting, hD, hN]
  rw [hnorm, hpe]
  simp

/-- An `executing` event whose `prompt_id` is JSON `null` — Python
`None`, which both guards tolerate — is processed exactly like a matching
one: `current_index` moves to the named node's position and the label and
fraction are reported.  Holds for any session context: the guard never
reaches a comparison that could skip it. -/
lemma step_exec_nullpid (c : SessionCtx) (ci : Nat) (s : String) {j : Nat}
    (hj : (topoSort c.workflow).indexOf? s = some j)
    (hT : c.total ≠ 0) :
    step c ci (evExecuting (.str s) .null)
      = .cont j [.setLabel (some (((c.workflow.lookup s).bind (·.class_type)).getD "Unknown")),
                 .setFraction ((j : ℚ) / (c.total : ℚ))] := by
  simp only [evExecuting, step]
  rw [show getKey (J.obj [("type", .str "executing"),
      ("data", .obj [("node", .str s), ("prompt_id", J.null)])]) "type"
    = .ok (.str "executing") from rfl]
  try dsimp only
  rw [if_pos (J.beq_str_refl "executing")]
  simp only [handleExecuting]
  rw [show getKey (J.obj [("type", .str "executing"),
      ("data", .obj [("node", .str s), ("prompt_id", J.null)])]) "data"
    = .ok (.obj [("node", .str s), ("prompt_id", J.null)]) from rfl]
  try dsimp only
  rw [show getKey (J.obj [("node", .str s), ("prompt_id", J.null)]) "node"
    = .ok (.str s) from rfl]
  try dsimp only
  rw [show pyNorm (dictGet (J.obj [("node", .str s), ("prompt_id", J.null)]) "prompt_id")
    = none from rfl]
  have hexec : SessionCtx.execOrder c = topoSort c.workflow := rfl
  simp [J.isNull, nodeIndexGet, hexec, hj, classOf, hT]

/-- Claim C1 counterexample: the claim asserts that an `executing` event
whose prompt id differs from the session's server job id never changes
`current_index`.  But a JSON `null` prompt id — a value different from
the session's id — decodes to Python `None`, which
`msg_pid not in (prompt_id, None)` tolerates: the event is processed,
`current_index` moves to the named node's position, and the label and
fraction are reported. -/
theorem executing_prompt_guard_counterexample :
    J.beq .null (.str "NEW") = false ∧
    step ⟨demoGraph, some (.str "NEW")⟩ 0 (evExecuting (.str "B") .null)
      = .cont 1 [.setLabel (some "Mid"), .setFraction (1 / 2)] := by
  refine ⟨rfl, ?_⟩
  have h : step ⟨demoGraph, some (.str "NEW")⟩ 0 (evExecuting (.str "B") .null)
      = .cont 1 [.setLabel (some "Mid"),
                 .setFraction (((1 : Nat) : ℚ) / ((2 : Nat) : ℚ))] := rfl
  rw [h]
  norm_num

/-- Claim C1 (amended): within one session whose server job id is `sid`,
an `executing` event carrying a present, non-null prompt id different
from `sid` neither changes `current_index` nor emits anything nor
terminates the loop (processing the event is a no-op); a step breaks out
of the receive loop exactly for an `executing` event whose `node` is
`null` and whose `prompt_id` equals `sid` — in particular a `null` node
with a mismatched prompt id does not terminate the loop; but an
`executing` event whose `prompt_id` is JSON `null` (Python `None`, which
`msg_pid not in (prompt_id, None)` tolerates) is processed like a
matching one: it moves `current_index` to the named node's position and
reports its label and fraction. -/
theorem executing_prompt_guard (c : SessionCtx) (sid : String)
    (hsid : c.prompt_id = some (.str sid)) (ci : Nat) :
    (∀ v data node p rest,
        getKey v "type" = .ok (.str "executing") →
        getKey v "data" = .ok data →
        getKey data "node" = .ok node →
        dictGet data "prompt_id" = some p →
        p.isNull = false →
        J.beq p (.str sid) = false →
        step c ci (.text (some v)) = .cont ci [] ∧
        runLoop c ci (.text (some v) :: rest) = runLoop c ci rest) ∧
    (∀ e, step c ci e = .brk ↔
      ∃ v data, e = .text (some v) ∧
        getKey v "type" = .ok (.str "executing") ∧
        getKey v "data" = .ok data ∧
        getKey data "node" = .ok .null ∧
        dictGet data "prompt_id" = some (.str sid)) ∧
    (∀ s j, (topoSort c.workflow).indexOf? s = some j → c.total ≠ 0 →
      step c ci (evExecuting (.str s) .null)
        = .cont j [.setLabel (some (((c.workflow.lookup s).bind (·.class_type)).getD "Unknown")),
                   .setFraction ((j : ℚ) / (c.total : ℚ))]) := by
  refine ⟨?_, ?_, fun s j hj hTt => step_exec_nullpid c ci s hj hTt⟩
  · intro v data node p rest hT hD hN hP hpn hp
    have hpe : pyOEq (some p) (pyNorm c.prompt_id) = false := by
      rw [hsid]; exact hp
    have hstep := step_stale_executing c ci hT hD hN hP hpn hpe
    exact ⟨hstep, by rw [runLoop, hstep]; simp⟩
  · intro e
    cases e with
    | binary bs => simp [step]
    | text p =>
      cases p with
      | none => simp [step]
      | some v =>
        simp only [step]
        cases hT : getKey v "type" with
        | error e' => simp [hT]
        | ok t =>
          dsimp only
          by_cases h1 : J.beq t (.str "executing") = true
          · obtain rfl : t = .str "executing" := J.beq_str_right h1
            rw [if_pos h1]
            rw [handleExecuting_brk_iff]
            constructor
            · rintro ⟨data, hD, hN, hpid⟩
              rw [hsid] at hpid
              rw [show pyNorm (some (J.str sid)) = some (J.str sid) from rfl] at hpid
              exact ⟨v, data, rfl, hT, hD, hN,
                pyNorm_some_str_iff.1 (pyOEq_some_str_iff.1 hpid)⟩
            · rintro ⟨v', data, hv, hT', hD, hN, hpid⟩
              obtain rfl : v' = v := by injection hv with h; injection h with h2; exact h2.symm
              exact ⟨data, hD, hN, by
                rw [hsid, hpid]
                exact pyOEq_some_str_iff.2 (pyNorm_some_str_iff.2 rfl)⟩
          · rw [if_neg h1]
            by_cases h2 : J.beq t (.str "progress") = true
            · rw [if_pos h2]
              constructor
              · intro h; exact absurd h (handleProgress_ne_brk c ci v)
              · rintro ⟨v', data, hv, hT', -, -, -⟩
                obtain rfl : v' = v := by injection hv with h; injection h with h2; exact h2.symm
                rw [hT] at hT'
                obtain rfl : t = .str "executing" := by injection hT'
                exact absurd (J.beq_str_refl "executing") h1
            · rw [if_neg h2]
              by_cases h3 : J.beq t (.str "executed") = true
              · rw [if_pos h3]
                constructor
                · intro h; exact absurd h (handleExecuted_ne_brk c ci v)
                · rintro ⟨v', data, hv, hT', -, -, -⟩
                  obtain rfl : v' = v := by injection hv with h; injection h with h2; exact h2.symm
                  rw [hT] at hT'
                  obtain rfl : t = .str "executing" := by injection hT'
                  exact absurd (J.beq_str_refl "executing") h1
              · rw [if_neg h3]
                constructor
                · intro h; exact StepRes.noConfusion h
                · rintro ⟨v', data, hv, hT', -, -, -⟩
                  obtain rfl : v' = v := by injection hv with h; injection h with h2; exact h2.symm
                  rw [hT] at hT'
                  obtain rfl : t = .str "executing" := by injection hT'
                  exact absurd (J.beq_str_refl "executing") h1

/-- Witness for C1 (amended): in a session with id `"NEW"`, a stale
`executing` event for prompt `"OLD"` (even with `node: null`) is a no-op
and does not break; the terminal event for `"NEW"` breaks; and an
`executing` event with a `null` prompt id is processed, reporting node
`A`'s label and fraction. -/
theorem executing_prompt_guard_witness :
    step ⟨demoGraph, some (.str "NEW")⟩ 0 (evExecuting .null (.str "OLD")) = .cont 0 [] ∧
    step ⟨demoGraph, some (.str "NEW")⟩ 0 (evExecuting .null (.str "NEW")) = .brk ∧
    step ⟨demoGraph, some (.str "NEW")⟩ 0 (evExecuting (.str "A") .null)
      = .cont 0 [.setLabel (some "Load"), .setFraction 0] := by
  have h := executing_prompt_guard ⟨demoGraph, some (.str "NEW")⟩ "NEW" rfl 0
  refine ⟨(h.1 (.obj [("type", .str "executing"),
      ("data", .obj [("node", .null), ("prompt_id", .str "OLD")])])
      (.obj [("node", .null), ("prompt_id", .str "OLD")]) .null (.str "OLD") []
      rfl rfl rfl rfl rfl rfl).1,
    (h.2.1 (evExecuting .null (.str "NEW"))).2 ⟨_, _, rfl, rfl, rfl, rfl, rfl⟩, ?_⟩
  have h3 := h.2.2 "A" 0 (by decide) (by decide)
  have h4 : step ⟨demoGraph, some (.str "NEW")⟩ 0 (evExecuting (.str "A") .null)
      = .cont 0 [.setLabel (some "Load"),
                 .setFraction (((0 : Nat) : ℚ) / ((2 : Nat) : ℚ))] := h3
  rw [h4]
  norm_num

/-- Claim C5 counterexample: the `progress` and `executed` branches carry
no prompt-id check at all.  In a session whose server job id is `"NEW"`,
an `executed` event explicitly carrying prompt id `"OLD"` with an image
output still snaps the reported fraction and still triggers a preview
fetch. -/
theorem stale_events_guard_counterexample :
    step ⟨demoGraph, some (.str "NEW")⟩ 0
        (evExecutedPid (.obj [("images", .arr [.obj [("filename", .str "p.png")]])])
          (.str "OLD"))
      = .cont 0 [CB.setFraction (1 / 2),
                 CB.previewFetch (.obj [("filename", .str "p.png")])] := by
  have h : step ⟨demoGraph, some (.str "NEW")⟩ 0
        (evExecutedPid (.obj [("images", .arr [.obj [("filename", .str "p.png")]])])
          (.str "OLD"))
      = .cont 0 [CB.setFraction ((((0 : Nat) : ℚ) + 1) / ((2 : Nat) : ℚ)),
                 CB.previewFetch (.obj [("filename", .str "p.png")])] := rfl
  rw [h]
  norm_num

/-- Claim C5 (amended): prompt-id isolation holds only for the
`executing` branch — an `executing` event with a present, non-null,
mismatched prompt id leaves `current_index`, the reported fraction, and
the label untouched and fetches nothing (a null or absent prompt id is
Python `None`, which the guard tolerates, so such events are processed);
`progress` and `executed` events, by contrast, are processed identically
whatever prompt id their payload carries (the branch never reads it). -/
theorem stale_events_guard (c : SessionCtx) (sid : String)
    (hsid : c.prompt_id = some (.str sid)) (ci : Nat) :
    (∀ node p rest, p.isNull = false → J.beq p (.str sid) = false →
        step c ci (evExecuting node p) = .cont ci [] ∧
        runLoop c ci (evExecuting node p :: rest) = runLoop c ci rest) ∧
    (∀ v m p q, step c ci (evProgressPid v m p) = step c ci (evProgressPid v m q)) ∧
    (∀ out p q, step c ci (evExecutedPid out p) = step c ci (evExecutedPid out q)) := by
  refine ⟨fun node p rest hpn hp => ?_, fun v m p q => rfl, fun out p q => rfl⟩
  have hpe : pyOEq (some p) (pyNorm c.prompt_id) = false := by rw [hsid]; exact hp
  have hstep : step c ci (evExecuting node p) = .cont ci [] :=
    step_stale_executing c ci (v := (.obj [("type", .str "executing"),
      ("data", .obj [("node", node), ("prompt_id", p)])]))
      rfl rfl rfl rfl hpn hpe
  exact ⟨hstep, by rw [runLoop, hstep]; simp⟩

/-- Witness for C5 (amended): concrete instance in a two-node session. -/
theorem stale_events_guard_witness :
    step ⟨demoGraph, some (.str "NEW")⟩ 0 (evExecuting (.str "A") (.str "OLD")) = .cont 0 [] ∧
    step ⟨demoGraph, some (.str "NEW")⟩ 0 (evProgressPid 1 2 (.str "OLD"))
      = step ⟨demoGraph, some (.str "NEW")⟩ 0 (evProgressPid 1 2 (.str "NEW")) := by
  have h := stale_events_guard ⟨demoGraph, some (.str "NEW")⟩ "NEW" rfl 0
  exact ⟨(h.1 (.str "A") (.str "OLD") [] rfl rfl).1, h.2.1 1 2 (.str "OLD") (.str "NEW")⟩

/-! ## Step computations for canonical protocol events -/

lemma fractionsOf_append (a b : List CB) :
    fractionsOf (a ++ b) = fractionsOf a ++ fractionsOf b :=
  List.filterMap_append a b _

lemma step_terminal (c : SessionCtx) (ci : Nat) {sid : String}
    (hsid : c.prompt_id = some (.str sid)) :
    step c ci (evExecuting .null (.str sid)) = .brk := by
  simp only [evExecuting, step]
  rw [show getKey (J.obj [("type", .str "executing"),
      ("data", .obj [("node", J.null), ("prompt_id", .str sid)])]) "type"
    = .ok (.str "executing") from rfl]
  try dsimp only
  rw [if_pos (J.beq_str_refl "executing")]
  simp only [handleExecuting]
  rw [show getKey (J.obj [("type", .str "executing"),
      ("data", .obj [("node", J.null), ("prompt_id", .str sid)])]) "data"
    = .ok (.obj [("node", J.null), ("prompt_id", .str sid)]) from rfl]
  try dsimp only
  rw [show getKey (J.obj [("node", J.null), ("prompt_id", .str sid)]) "node"
    = .ok J.null from rfl]
  try dsimp only
  rw [show dictGet (J.obj [("node", J.null), ("prompt_id", .str sid)]) "prompt_id"
    = some (.str sid) from rfl]
  rw [hsid]
  rw [show pyNorm (some (J.str sid)) = some (J.str sid) from rfl]
  simp [pyOEq, J.beq_str_refl, J.isNull]

lemma step_exec_known (c : SessionCtx) (ci : Nat) {sid : String} (s : String) {j : Nat}
    (hsid : c.prompt_id = some (.str sid))
    (hj : (topoSort c.workflow).indexOf? s = some j)
    (hT : c.total ≠ 0) :
    step c ci (evExecuting (.str s) (.str sid))
      = .cont j [.setLabel (some (((c.workflow.lookup s).bind (·.class_type)).getD "Unknown")),
                 .setFraction ((j : ℚ) / (c.total : ℚ))] := by
  simp only [evExecuting, step]
  rw [show getKey (J.obj [("type", .str "executing"),
      ("data", .obj [("node", .str s), ("prompt_id", .str sid)])]) "type"
    = .ok (.str "executing") from rfl]
  try dsimp only
  rw [if_pos (J.beq_str_refl "executing")]
  simp only [handleExecuting]
  rw [show getKey (J.obj [("type", .str "executing"),
      ("data", .obj [("node", .str s), ("prompt_id", .str sid)])]) "data"
    = .ok (.obj [("node", .str s), ("prompt_id", .str sid)]) from rfl]
  try dsimp only
  rw [show getKey (J.obj [("node", .str s), ("prompt_id", .str sid)]) "node"
    = .ok (.str s) from rfl]
  try dsimp only
  rw [show dictGet (J.obj [("node", .str s), ("prompt_id", .str sid)]) "prompt_id"
    = some (.str sid) from rfl]
  rw [hsid]
  rw [show pyNorm (some (J.str sid)) = some (J.str sid) from rfl]
  have hexec : SessionCtx.execOrder c = topoSort c.workflow := rfl
  simp [pyOEq, J.beq_str_refl, J.isNull, nodeIndexGet, hexec, hj, classOf, hT]

lemma step_prog (c : SessionCtx) (ci : Nat) (v m : Int)
    (hm : m ≠ 0) (hT : c.total ≠ 0) :
    step c ci (evProgress v m)
      = .cont ci [.setFraction ((ci : ℚ) / (c.total : ℚ)
          + ((v : ℚ) / (m : ℚ)) / (c.total : ℚ))] := by
  simp only [evProgress, step]
  rw [show getKey (J.obj [("type", .str "progress"),
      ("data", .obj [("value", .int v), ("max", .int m)])]) "type"
    = .ok (.str "progress") from rfl]
  try dsimp only
  rw [if_neg (by decide), if_pos (J.beq_str_refl "progress")]
  simp only [handleProgress]
  rw [show getKey (J.obj [("type", .str "progress"),
      ("data", .obj [("value", .int v), ("max", .int m)])]) "data"
    = .ok (.obj [("value", .int v), ("max", .int m)]) from rfl]
  try dsimp only
  rw [show getKey (J.obj [("value", .int v), ("max", .int m)]) "value"
    = .ok (.int v) from rfl]
  try dsimp only
  rw [show getKey (J.obj [("value", .int v), ("max", .int m)]) "max"
    = .ok (.int m) from rfl]
  simp [toNum, hm, hT]

lemma step_executed_noimg (c : SessionCtx) (ci : Nat) (hT : c.total ≠ 0) :
    step c ci (evExecutedOut (.obj []))
      = .cont ci [.setFraction (((ci : ℚ) + 1) / (c.total : ℚ))] := by
  simp only [evExecutedOut, step]
  rw [show getKey (J.obj [("type", .str "executed"),
      ("data", .obj [("output", .obj [])])]) "type" = .ok (.str "executed") from rfl]
  try dsimp only
  rw [if_neg (by decide), if_neg (by decide), if_pos (J.beq_str_refl "executed")]
  simp only [handleExecuted]
  rw [if_neg hT]
  rfl

lemma step_executed_img (c : SessionCtx) (ci : Nat) (img : J) (imgs : List J)
    (hT : c.total ≠ 0) :
    step c ci (evExecutedOut (.obj [("images", .arr (img :: imgs))]))
      = .cont ci [.setFraction (((ci : ℚ) + 1) / (c.total : ℚ)), .previewFetch img] := by
  simp only [evExecutedOut, step]
  rw [show getKey (J.obj [("type", .str "executed"),
      ("data", .obj [("output", .obj [("images", .arr (img :: imgs))])])]) "type"
    = .ok (.str "executed") from rfl]
  try dsimp only
  rw [if_neg (by decide), if_neg (by decide), if_pos (J.beq_str_refl "executed")]
  simp only [handleExecuted]
  rw [if_neg hT]
  rfl

lemma step_unknown_skip (c : SessionCtx) (ci : Nat) {v t : J}
    (hT : getKey v "type" = .ok t)
    (h1 : J.beq t (.str "executing") = false)
    (h2 : J.beq t (.str "progress") = false)
    (h3 : J.beq t (.str "executed") = false) :
    step c ci (.text (some v)) = .cont ci [] := by
  simp [step, hT, h1, h2, h3]

/-! ## Division-by-zero reachability -/

lemma getKey_ne_zeroDiv {v : J} {k : String} : getKey v k ≠ .error .zeroDiv := by
  intro h
  rcases getKey_error_class h with h1 | h1 <;> exact PyErr.noConfusion h1

lemma toNum_ne_zeroDiv {v : J} : toNum v ≠ .error .zeroDiv := by
  intro h
  exact PyErr.noConfusion (toNum_error_class h)

lemma nodeIndexGet_ne_zeroDiv {order : List String} {node : J} {cur : Nat} :
    nodeIndexGet order node cur ≠ .error .zeroDiv := by
  intro h
  exact PyErr.noConfusion (nodeIndexGet_error_class h)

lemma classOf_ne_zeroDiv {g : Graph} {node : J} : classOf g node ≠ .error .zeroDiv := by
  intro h
  exact PyErr.noConfusion (classOf_error_class h)

lemma containsImages_ne_zeroDiv {v : J} : containsImages v ≠ .error .zeroDiv := by
  intro h
  exact PyErr.noConfusion (containsImages_error_class h)

lemma index0_ne_zeroDiv {v : J} : index0 v ≠ .error .zeroDiv := by
  intro h
  rcases index0_error_class h with h1 | h1 <;> exact PyErr.noConfusion h1

lemma step_no_zeroDiv (c : SessionCtx) (ci : Nat) (e : Incoming)
    (hTot : c.total ≠ 0) (hok : progressMaxOk e = true) :
    ∀ outs, step c ci e ≠ .err .zeroDiv outs := by
  intro outs h
  cases e with
  | binary bs => exact StepRes.noConfusion h
  | text po =>
    cases po with
    | none =>
      simp only [step] at h
      injection h with h1 h2
      exact PyErr.noConfusion h1
    | some v =>
      simp only [step, handleExecuting, handleProgress, handleExecuted] at h
      repeat' split at h
      all_goals
        first
          | exact StepRes.noConfusion h
          | simp_all [progressMaxOk, getKey_ne_zeroDiv, toNum_ne_zeroDiv,
              nodeIndexGet_ne_zeroDiv, classOf_ne_zeroDiv, containsImages_ne_zeroDiv,
              index0_ne_zeroDiv]

lemma runLoop_no_zeroDiv (c : SessionCtx) (hTot : c.total ≠ 0) :
    ∀ (events : List Incoming) (ci : Nat),
      (∀ e ∈ events, progressMaxOk e = true) →
      ∀ ci₂, (runLoop c ci events).2 ≠ .raised .zeroDiv ci₂ := by
  intro events
  induction events with
  | nil => intro ci _ ci₂ h; exact LoopEnd.noConfusion h
  | cons e rest ih =>
    intro ci hall ci₂ h
    rw [runLoop] at h
    cases hstep : step c ci e with
    | cont ci' outs =>
      rw [hstep] at h
      exact ih ci' (fun x hx => hall x (List.mem_cons_of_mem _ hx)) ci₂ h
    | brk =>
      rw [hstep] at h
      exact LoopEnd.noConfusion h
    | err er outs =>
      rw [hstep] at h
      injection h with h1 h2
      rw [h1] at hstep
      exact step_no_zeroDiv c ci e hTot (hall e (List.mem_cons_self e rest)) outs hstep

/-- Claim C10 counterexample: not every matching `executing` event on an
empty graph reaches the division — the terminal one (`node: null`,
matching prompt id) breaks out of the loop before any arithmetic, and the
session then completes normally. -/
theorem division_by_zero_counterexample :
    step ⟨[], some (.str "X")⟩ 0 (evExecuting .null (.str "X")) = .brk ∧
    runSession [] ⟨true, .ok (.obj [("prompt_id", .str "X")]),
        [evExecuting .null (.str "X")], .ok (.obj []), false⟩
      = ([CB.closeWs, CB.setFraction 0, CB.setLabel none], .completedOk) :=
  ⟨rfl, rfl⟩

/-- Claim C10 (amended): the progress arithmetic is unguarded division.
On an empty graph (`total = 0`), every matching `executing` event that
names a node, every integer-payload `progress` event, and every
`executed` event raises `ZeroDivisionError` and aborts the session; a
`progress` event with `max == 0` raises regardless of the graph; and
under the preconditions `total > 0` and `max ≠ 0` the zero-division
branches are unreachable for the whole receive loop. -/
theorem division_by_zero_guard (c : SessionCtx) (ci : Nat) :
    (c.total = 0 → ∀ s p, pyOEq (some p) c.prompt_id = true →
      step c ci (evExecuting (.str s) p) = .err .zeroDiv
        [.setLabel (some (((c.workflow.lookup s).bind (·.class_type)).getD "Unknown"))]) ∧
    (c.total = 0 → ∀ v m, step c ci (evProgress v m) = .err .zeroDiv []) ∧
    (c.total = 0 → ∀ out, step c ci (evExecutedOut out) = .err .zeroDiv []) ∧
    (∀ v, step c ci (evProgress v 0) = .err .zeroDiv []) ∧
    (c.total ≠ 0 → ∀ events, (∀ e ∈ events, progressMaxOk e = true) →
      ∀ ci₂, (runLoop c ci events).2 ≠ .raised .zeroDiv ci₂) := by
  refine ⟨fun h0 s p hp => ?_, fun h0 v m => ?_, fun h0 out => ?_, fun v => ?_,
    fun hTot events hall ci₂ => runLoop_no_zeroDiv c hTot events ci hall ci₂⟩
  · simp only [evExecuting, step]
    rw [show getKey (J.obj [("type", .str "executing"),
        ("data", .obj [("node", .str s), ("prompt_id", p)])]) "type"
      = .ok (.str "executing") from rfl]
    try dsimp only
    rw [if_pos (J.beq_str_refl "executing")]
    simp only [handleExecuting]
    rw [show getKey (J.obj [("type", .str "executing"),
        ("data", .obj [("node", .str s), ("prompt_id", p)])]) "data"
      = .ok (.obj [("node", .str s), ("prompt_id", p)]) from rfl]
    try dsimp only
    rw [show getKey (J.obj [("node", .str s), ("prompt_id", p)]) "node"
      = .ok (.str s) from rfl]
    try dsimp only
    rw [show dictGet (J.obj [("node", .str s), ("prompt_id", p)]) "prompt_id"
      = some p from rfl]
    have hp' : pyOEq (pyNorm (some p)) (pyNorm c.prompt_id) = true := pyNorm_pyOEq hp
    rw [hp']
    simp only [J.isNull, Bool.and_true, Bool.not_true, Bool.false_and, if_false]
    simp only [nodeIndexGet, classOf]
    try dsimp only
    rw [if_pos h0]
    simp
  · simp only [evProgress, step]
    rw [show getKey (J.obj [("type", .str "progress"),
        ("data", .obj [("value", .int v), ("max", .int m)])]) "type"
      = .ok (.str "progress") from rfl]
    try dsimp only
    rw [if_neg (by decide), if_pos (J.beq_str_refl "progress")]
    simp only [handleProgress]
    rw [show getKey (J.obj [("type", .str "progress"),
        ("data", .obj [("value", .int v), ("max", .int m)])]) "data"
      = .ok (.obj [("value", .int v), ("max", .int m)]) from rfl]
    try dsimp only
    rw [show getKey (J.obj [("value", .int v), ("max", .int m)]) "value"
      = .ok (.int v) from rfl]
    try dsimp only
    rw [show getKey (J.obj [("value", .int v), ("max", .int m)]) "max"
      = .ok (.int m) from rfl]
    dsimp only [toNum]
    by_cases hm : m = 0
    · rw [if_pos hm]
    · rw [if_neg hm]
      try dsimp only
      rw [if_pos h0]
  · simp only [evExecutedOut, step]
    rw [show getKey (J.obj [("type", .str "executed"),
        ("data", .obj [("output", out)])]) "type" = .ok (.str "executed") from rfl]
    try dsimp only
    rw [if_neg (by decide), if_neg (by decide), if_pos (J.beq_str_refl "executed")]
    simp only [handleExecuted]
    rw [if_pos h0]
  · simp only [evProgress, step]
    rw [show getKey (J.obj [("type", .str "progress"),
        ("data", .obj [("value", .int v), ("max", .int 0)])]) "type"
      = .ok (.str "progress") from rfl]
    try dsimp only
    rw [if_neg (by decide), if_pos (J.beq_str_refl "progress")]
    simp only [handleProgress]
    rw [show getKey (J.obj [("type", .str "progress"),
        ("data", .obj [("value", .int v), ("max", .int 0)])]) "data"
      = .ok (.obj [("value", .int v), ("max", .int 0)]) from rfl]
    try dsimp only
    rw [show getKey (J.obj [("value", .int v), ("max", .int 0)]) "value"
      = .ok (.int v) from rfl]
    try dsimp only
    rw [show getKey (J.obj [("value", .int v), ("max", .int 0)]) "max"
      = .ok (.int 0) from rfl]
    dsimp only [toNum]
    rw [if_pos rfl]

/-- Witness for C10 (amended): on an empty graph a node-naming
`executing` event and a `progress` event both divide by zero; `max = 0`
divides by zero on a nonempty graph too; and a well-formed stream on the
two-node graph raises no `ZeroDivisionError`. -/
theorem division_by_zero_guard_witness :
    step ⟨[], some (.str "X")⟩ 0 (evExecuting (.str "A") (.str "X"))
      = .err .zeroDiv [.setLabel (some "Unknown")] ∧
    step ⟨[], some (.str "X")⟩ 0 (evProgress 1 2) = .err .zeroDiv [] ∧
    step ⟨demoGraph, some (.str "X")⟩ 0 (evProgress 1 0) = .err .zeroDiv [] ∧
    (runLoop ⟨demoGraph, some (.str "X")⟩ 0 [evProgress 1 2]).2 ≠ .raised .zeroDiv 0 := by
  refine ⟨(division_by_zero_guard ⟨[], some (.str "X")⟩ 0).1 rfl "A" (.str "X") rfl,
    (division_by_zero_guard ⟨[], some (.str "X")⟩ 0).2.1 rfl 1 2,
    (division_by_zero_guard ⟨demoGraph, some (.str "X")⟩ 0).2.2.2.1 1,
    (division_by_zero_guard ⟨demoGraph, some (.str "X")⟩ 0).2.2.2.2 (by decide)
      [evProgress 1 2] ?_ 0⟩
  intro e he
  simp only [List.mem_singleton] at he
  subst he
  rfl

/-! ## Progress monotonicity -/

lemma cast_div_le_cast_div {a b : Nat} {T : ℚ} (hT : 0 < T) (h : a ≤ b) :
    (a : ℚ) / T ≤ (b : ℚ) / T := by
  apply div_le_div_of_nonneg_right ?_ hT.le
  exact_mod_cast h

lemma num_div_le_num_div {a b T : ℚ} (hT : 0 < T) (h : a ≤ b) : a / T ≤ b / T :=
  div_le_div_of_nonneg_right h hT.le

lemma inNode_le_next {ci : Nat} {q T : ℚ} (hT : 0 < T) (hq : q ≤ 1) :
    (ci : ℚ) / T + q / T ≤ ((ci : ℚ) + 1) / T := by
  rw [add_div]
  exact add_le_add_left (num_div_le_num_div hT hq) _

/-- Claim C6 (amended): over any protocol-ordered event stream (`Adm`) of
a session whose graph is nonempty, the fractions reported by the receive
loop are non-decreasing, and every report is at least the phase's last
report. -/
lemma chain'_prepend_le {b x : ℚ} {l : List ℚ} (hbx : b ≤ x)
    (h : List.Chain' (· ≤ ·) (x :: l)) : List.Chain' (· ≤ ·) (b :: x :: l) :=
  List.chain'_cons.2 ⟨hbx, h⟩

/-- Claim C6 (amended): over any protocol-ordered event stream (`Adm`) of
a session whose graph is nonempty, the fractions reported by the receive
loop are non-decreasing, and every report is at least the phase's last
report. -/
theorem progress_reports_monotone (c : SessionCtx) (sid : String)
    (hsid : c.prompt_id = some (.str sid)) (hT : 0 < c.total) :
    ∀ {events : List Incoming} {ci : Nat} {ph : Phase}, Adm c sid ci ph events →
      PhaseOK ph →
      List.Chain' (· ≤ ·)
        ((phaseBound (c.total : ℚ) ci ph).toList
          ++ fractionsOf (runLoop c ci events).1) := by
  have hTne : c.total ≠ 0 := by omega
  have hTQ : (0 : ℚ) < (c.total : ℚ) := by positivity
  intro events ci ph hAdm
  induction hAdm with
  | nil ci ph =>
    intro _
    cases ph <;> simp [runLoop, fractionsOf, phaseBound]
  | binary ci ph bs hrest ih =>
    intro hok
    simp only [runLoop]
    rw [show step c ci (.binary bs) = .cont ci [.preview (bs.drop 8)] from rfl]
    dsimp only
    rw [fractionsOf_append]
    simpa [fractionsOf] using ih hok
  | unknown ci ph hTy h1 h2 h3 hrest ih =>
    intro hok
    simp only [runLoop]
    rw [step_unknown_skip c ci hTy h1 h2 h3]
    dsimp only
    simpa [fractionsOf] using ih hok
  | stale ci ph node p hpn hbq hrest ih =>
    intro hok
    have hpe : pyOEq (some p) (pyNorm c.prompt_id) = false := by rw [hsid]; exact hbq
    simp only [runLoop]
    rw [show step c ci (evExecuting node p) = .cont ci [] from
      step_stale_executing c ci rfl rfl rfl rfl hpn hpe]
    dsimp only
    simpa [fractionsOf] using ih hok
  | terminal ci ph rest =>
    intro _
    simp only [runLoop]
    rw [step_terminal c ci hsid]
    cases ph <;> simp [fractionsOf, phaseBound]
  | exec ci ph s j hj hidx hrest ih =>
    intro hok
    have ih' := ih trivial
    simp only [phaseBound, Option.toList_some, List.singleton_append] at ih'
    simp only [runLoop]
    rw [step_exec_known c ci s hsid hj hTne]
    dsimp only
    rw [fractionsOf_append]
    have hfr : fractionsOf
        [CB.setLabel (some (((c.workflow.lookup s).bind (·.class_type)).getD "Unknown")),
         CB.setFraction ((j : ℚ) / (c.total : ℚ))] = [(j : ℚ) / (c.total : ℚ)] := rfl
    rw [hfr]
    cases ph with
    | fresh => simpa using ih'
    | atNode =>
      simp only [phaseBound, Option.toList_some, List.singleton_append, List.cons_append]
      exact chain'_prepend_le (cast_div_le_cast_div hTQ hidx) ih'
    | inNode q =>
      simp only [phaseBound, Option.toList_some, List.singleton_append, List.cons_append]
      refine chain'_prepend_le ?_ ih'
      calc (ci : ℚ) / (c.total : ℚ) + q / (c.total : ℚ)
          ≤ ((ci : ℚ) + 1) / (c.total : ℚ) := inNode_le_next hTQ hok.2
        _ ≤ (j : ℚ) / (c.total : ℚ) := by
            have : ((ci : ℚ) + 1) = ((ci + 1 : Nat) : ℚ) := by push_cast; ring
            rw [this]
            exact cast_div_le_cast_div hTQ hidx
    | nodeDone =>
      simp only [phaseBound, Option.toList_some, List.singleton_append, List.cons_append]
      refine chain'_prepend_le ?_ ih'
      have : ((ci : ℚ) + 1) = ((ci + 1 : Nat) : ℚ) := by push_cast; ring
      rw [this]
      exact cast_div_le_cast_div hTQ hidx
  | prog ci ph v m hv hvm hm hpOK hrest ih =>
    intro hok
    have hq0 : (0 : ℚ) ≤ (v : ℚ) / (m : ℚ) := by
      apply div_nonneg <;> [exact_mod_cast hv; exact_mod_cast hm.le]
    have hq1 : (v : ℚ) / (m : ℚ) ≤ 1 := by
      rw [div_le_one (by exact_mod_cast hm)]
      exact_mod_cast hvm
    have ih' := ih ⟨hq0, hq1⟩
    simp only [phaseBound, Option.toList_some, List.singleton_append] at ih'
    simp only [runLoop]
    rw [step_prog c ci v m hm.ne' hTne]
    dsimp only
    rw [fractionsOf_append]
    have hfr : fractionsOf
        [CB.setFraction ((ci : ℚ) / (c.total : ℚ) + (v : ℚ) / (m : ℚ) / (c.total : ℚ))]
      = [(ci : ℚ) / (c.total : ℚ) + (v : ℚ) / (m : ℚ) / (c.total : ℚ)] := rfl
    rw [hfr]
    cases ph with
    | fresh => simpa using ih'
    | atNode =>
      simp only [phaseBound, Option.toList_some, List.singleton_append, List.cons_append]
      refine chain'_prepend_le ?_ ih'
      exact le_add_of_nonneg_right (div_nonneg hq0 hTQ.le)
    | inNode q =>
      simp only [phaseBound, Option.toList_some, List.singleton_append, List.cons_append]
      refine chain'_prepend_le ?_ ih'
      exact add_le_add_left (num_div_le_num_div hTQ hpOK) _
    | nodeDone =>
      simp only [phaseBound, Option.toList_some, List.singleton_append, List.cons_append]
      refine chain'_prepend_le ?_ ih'
      rw [add_div]
      exact add_le_add_left (num_div_le_num_div hTQ hpOK) _
  | doneNoImg ci ph hrest ih =>
    intro hok
    have ih' := ih trivial
    simp only [phaseBound, Option.toList_some, List.singleton_append] at ih'
    simp only [runLoop]
    rw [step_executed_noimg c ci hTne]
    dsimp only
    rw [fractionsOf_append]
    have hfr : fractionsOf [CB.setFraction (((ci : ℚ) + 1) / (c.total : ℚ))]
      = [((ci : ℚ) + 1) / (c.total : ℚ)] := rfl
    rw [hfr]
    cases ph with
    | fresh => simpa using ih'
    | atNode =>
      simp only [phaseBound, Option.toList_some, List.singleton_append, List.cons_append]
      refine chain'_prepend_le (num_div_le_num_div hTQ (by linarith)) ih'
    | inNode q =>
      simp only [phaseBound, Option.toList_some, List.singleton_append, List.cons_append]
      exact chain'_prepend_le (inNode_le_next hTQ hok.2) ih'
    | nodeDone =>
      simp only [phaseBound, Option.toList_some, List.singleton_append, List.cons_append]
      exact chain'_prepend_le le_rfl ih'
  | doneImg ci ph img imgs hrest ih =>
    intro hok
    have ih' := ih trivial
    simp only [phaseBound, Option.toList_some, List.singleton_append] at ih'
    simp only [runLoop]
    rw [step_executed_img c ci img imgs hTne]
    dsimp only
    rw [fractionsOf_append]
    have hfr : fractionsOf [CB.setFraction (((ci : ℚ) + 1) / (c.total : ℚ)),
        CB.previewFetch img] = [((ci : ℚ) + 1) / (c.total : ℚ)] := rfl
    rw [hfr]
    cases ph with
    | fresh => simpa using ih'
    | atNode =>
      simp only [phaseBound, Option.toList_some, List.singleton_append, List.cons_append]
      refine chain'_prepend_le (num_div_le_num_div hTQ (by linarith)) ih'
    | inNode q =>
      simp only [phaseBound, Option.toList_some, List.singleton_append, List.cons_append]
      exact chain'_prepend_le (inNode_le_next hTQ hok.2) ih'
    | nodeDone =>
      simp only [phaseBound, Option.toList_some, List.singleton_append, List.cons_append]
      exact chain'_prepend_le le_rfl ih'

/-- Claim C6 counterexample: the server is free to send any interleaving,
and a `progress` event whose `value` regressed (here `1/1` followed by
`0/1`) makes the reported fraction drop from `1/2` to `0`: the reported
sequence is not non-decreasing. -/
theorem progress_reports_monotone_counterexample :
    fractionsOf (runLoop ⟨demoGraph, some (.str "X")⟩ 0
        [evProgress 1 1, evProgress 0 1]).1 = [1 / 2, 0] ∧
    ¬ List.Chain' (· ≤ ·)
        (fractionsOf (runLoop ⟨demoGraph, some (.str "X")⟩ 0
          [evProgress 1 1, evProgress 0 1]).1) := by
  have h : fractionsOf (runLoop ⟨demoGraph, some (.str "X")⟩ 0
        [evProgress 1 1, evProgress 0 1]).1
      = [((0 : Nat) : ℚ) / ((2 : Nat) : ℚ) + ((1 : Int) : ℚ) / ((1 : Int) : ℚ) / ((2 : Nat) : ℚ),
         ((0 : Nat) : ℚ) / ((2 : Nat) : ℚ) + ((0 : Int) : ℚ) / ((1 : Int) : ℚ) / ((2 : Nat) : ℚ)] :=
    rfl
  rw [h]
  norm_num

/-- Witness for C6 (amended): a protocol-ordered stream on the two-node
graph — executing A, progress 1/2, executed, executing B, terminal —
reports a non-decreasing sequence of fractions. -/
theorem progress_reports_monotone_witness :
    List.Chain' (· ≤ ·) (fractionsOf (runLoop ⟨demoGraph, some (.str "W")⟩ 0
      [evExecuting (.str "A") (.str "W"), evProgress 1 2, evExecutedOut (.obj []),
       evExecuting (.str "B") (.str "W"), evExecuting .null (.str "W")]).1) := by
  have hAdm : Adm ⟨demoGraph, some (.str "W")⟩ "W" 0 .fresh
      [evExecuting (.str "A") (.str "W"), evProgress 1 2, evExecutedOut (.obj []),
       evExecuting (.str "B") (.str "W"), evExecuting .null (.str "W")] := by
    refine Adm.exec 0 .fresh "A" 0 (by decide) trivial ?_
    refine Adm.prog 0 .atNode 1 2 (by decide) (by decide) (by decide) trivial ?_
    refine Adm.doneNoImg 0 _ ?_
    refine Adm.exec 0 .nodeDone "B" 1 (by decide) (by simp [phaseIdxOK]) ?_
    exact Adm.terminal 1 .atNode []
  have h := progress_reports_monotone ⟨demoGraph, some (.str "W")⟩ "W" rfl
    (by decide) hAdm trivial
  simpa [phaseBound] using h

/-! ## Session exit paths -/

/-- Claim C9: on every exit path of a session — normal completion, any
exception (connect failure, submission failure, stream error, history
error), or an externally requested stop (which surfaces as a suppressed
stream error) — the `finally` block closes the websocket handle, resets
the reported progress to 0, and resets the current-node label to idle.
(`blocked` is the one non-exit: the modelled event list ran out while the
loop would still be sitting in `ws.recv()`.) -/
theorem session_cleanup_on_every_exit (wf : Graph) (inp : SessionInput)
    (h : (runSession wf inp).2 ≠ .blocked) :
    ∃ pre, (runSession wf inp).1 =
      pre ++ [CB.closeWs, CB.setFraction 0, CB.setLabel none] := by
  rcases inp with ⟨cok, post, evs, hist, stop⟩
  cases cok with
  | false => exact ⟨[], rfl⟩
  | true =>
    cases post with
    | error e => exact ⟨[], rfl⟩
    | ok resp =>
      cases resp with
      | null => exact ⟨[], rfl⟩
      | bool b => exact ⟨[], rfl⟩
      | int n => exact ⟨[], rfl⟩
      | str s => exact ⟨[], rfl⟩
      | arr xs => exact ⟨[], rfl⟩
      | obj fs =>
        rcases hLoop : runLoop ⟨wf, fs.lookup "prompt_id"⟩ 0 evs with ⟨outs, lend⟩
        cases lend with
        | raised e ci => exact ⟨outs, by simp [runSession, hLoop, cleanupCBs]⟩
        | ranOut ci =>
          exfalso; apply h
          simp [runSession, hLoop]
        | completed ci =>
          cases hist with
          | error e => exact ⟨outs, by simp [runSession, hLoop, cleanupCBs]⟩
          | ok hj =>
            cases hScan : histScan wf (fs.lookup "prompt_id") hj with
            | error e => exact ⟨outs, by simp [runSession, hLoop, hScan, cleanupCBs]⟩
            | ok finals =>
              exact ⟨outs ++ finals, by simp [runSession, hLoop, hScan, cleanupCBs]⟩

/-- Witness for C9: a session whose POST fails exits, and its callback
trail is exactly the cleanup sequence. -/
theorem session_cleanup_on_every_exit_witness :
    (runSession [] ⟨true, .error (), [], .ok .null, false⟩).2 ≠ .blocked ∧
    ∃ pre, (runSession [] ⟨true, .error (), [], .ok .null, false⟩).1 =
      pre ++ [CB.closeWs, CB.setFraction 0, CB.setLabel none] :=
  ⟨by simp [runSession], session_cleanup_on_every_exit [] _ (by simp [runSession])⟩

/-- Claim C8: when the submission POST raises, the session takes the
exception path before touching the event stream: whatever events are
waiting, the only callbacks are the cleanup resets (no progress, preview,
or final callback), the outcome is the submission failure; and the worker
loop goes on to process every remaining pending job in order. -/
theorem submission_failure_aborts_before_events (wf : Graph) (events : List Incoming)
    (hist : Except Unit J) (stop : Bool) :
    runSession wf ⟨true, .error (), events, hist, stop⟩ =
      ([CB.closeWs, CB.setFraction 0, CB.setLabel none], .raised .post (!stop)) ∧
    (∀ jobs : List QJob, (jobs.map QJob.id).Nodup → workerRun jobs = pendingIds jobs) :=
  ⟨rfl, fun jobs hnd => workerRunF_pendingIds jobs.length jobs le_rfl hnd⟩

/-- Witness for C8: a failed POST with a nonempty pending stream produces
only the cleanup callbacks, and a two-job queue is still fully drained. -/
theorem submission_failure_aborts_before_events_witness :
    runSession [] ⟨true, .error (), [.binary [0, 1]], .ok .null, false⟩ =
      ([CB.closeWs, CB.setFraction 0, CB.setLabel none], .raised .post true) ∧
    workerRun [⟨7, .pending⟩, ⟨9, .pending⟩] = [7, 9] := by
  refine ⟨(submission_failure_aborts_before_events [] [.binary [0, 1]] (.ok .null) false).1, ?_⟩
  have h := (submission_failure_aborts_before_events [] [] (.ok .null) false).2
    [⟨7, .pending⟩, ⟨9, .pending⟩] (by decide)
  rw [h]; decide

/-! ## Event-handling of malformed and mistyped text events -/

/-- Claim C7 counterexample: a text event that is not valid JSON is not
skipped — it raises out of the receive loop, and a following event is
never consumed. -/
theorem malformed_event_counterexample :
    step ⟨demoGraph, some (.str "X")⟩ 0 (.text none) = .err .malformedJson [] ∧
    runLoop ⟨demoGraph, some (.str "X")⟩ 0 [.text none, .binary [0, 0, 0, 0, 0, 0, 0, 0, 9]]
      = ([], .raised .malformedJson 0) :=
  ⟨rfl, rfl⟩

/-- Claim C7 (amended): a decoded JSON object whose `type` matches none of
the three handled kinds falls through the `elif` chain and is skipped, the
loop continuing with the next event; but a text event that is not valid
JSON, or whose `type` field is missing (or that is not an object), raises
— the receive loop aborts there and the remaining events are not
consumed.  (The abort is confined to the one job: see the session-level
theorems.) -/
theorem malformed_event_aborts (c : SessionCtx) (ci : Nat) :
    (∀ v t rest, getKey v "type" = .ok t →
      J.beq t (.str "executing") = false →
      J.beq t (.str "progress") = false →
      J.beq t (.str "executed") = false →
      step c ci (.text (some v)) = .cont ci [] ∧
      runLoop c ci (.text (some v) :: rest) = runLoop c ci rest) ∧
    (∀ rest, runLoop c ci (.text none :: rest) = ([], .raised .malformedJson ci)) ∧
    (∀ v e rest, getKey v "type" = .error e →
      runLoop c ci (.text (some v) :: rest) = ([], .raised e ci)) := by
  refine ⟨fun v t rest hT h1 h2 h3 => ?_, fun rest => rfl, fun v e rest hT => ?_⟩
  · have hstep : step c ci (.text (some v)) = .cont ci [] := by
      simp [step, hT, h1, h2, h3]
    refine ⟨hstep, ?_⟩
    rw [runLoop, hstep]
    simp
  · have hstep : step c ci (.text (some v)) = .err e [] := by
      simp [step, hT]
    rw [runLoop, hstep]

/-- Witness for C7 (amended): a `status` event — valid JSON, unhandled
type — is skipped and the loop continues to process the following binary
frame; an invalid-JSON event aborts instead. -/
theorem malformed_event_aborts_witness :
    runLoop ⟨demoGraph, some (.str "X")⟩ 0
        [.text (some (.obj [("type", .str "status"), ("data", .obj [])])),
         .binary [0, 0, 0, 0, 0, 0, 0, 0, 5]]
      = ([.preview [5]], .ranOut 0) ∧
    runLoop ⟨demoGraph, some (.str "X")⟩ 0 [.text none] = ([], .raised .malformedJson 0) := by
  have h := (malformed_event_aborts ⟨demoGraph, some (.str "X")⟩ 0).1
    (.obj [("type", .str "status"), ("data", .obj [])]) (.str "status")
    [.binary [0, 0, 0, 0, 0, 0, 0, 0, 5]] rfl rfl rfl rfl
  refine ⟨?_, (malformed_event_aborts ⟨demoGraph, some (.str "X")⟩ 0).2.1 []⟩
  rw [h.2]; rfl

/-! ## Topological-sort lemmas -/

lemma mem_keys_of_lookup {g : Graph} {a : String} {v : WNode}
    (h : g.lookup a = some v) : a ∈ keys g := by
  induction g with
  | nil => cases h
  | cons kv rest ih =>
    rcases kv with ⟨k, w⟩
    by_cases hk : a = k
    · subst hk; exact List.mem_cons_self _ _
    · have hbeq : (a == k) = false := beq_eq_false_iff_ne.mpr hk
      rw [List.lookup_cons, hbeq] at h
      exact List.mem_cons_of_mem _ (ih h)

lemma deps_subset_keys {g : Graph} {n p : String} (h : p ∈ deps g n) : p ∈ keys g := by
  unfold deps at h
  cases hl : g.lookup n with
  | none => rw [hl] at h; cases h
  | some node =>
    rw [hl] at h
    obtain ⟨kv, _, hval⟩ := List.mem_filterMap.1 h
    rcases kv with ⟨fld, val⟩
    dsimp only at hval
    rcases val with _ | b | i | s | xs | fs
    · cases hval
    · cases hval
    · cases hval
    · cases hval
    case arr =>
      rcases xs with _ | ⟨a, _ | ⟨b, tl⟩⟩
      · cases hval
      · cases hval
      · cases tl with
        | nil =>
          dsimp only at hval
          by_cases hmem : pyStr a ∈ keys g
          · rw [if_pos hmem] at hval
            injection hval with hval'
            subst hval'
            exact hmem
          · rw [if_neg hmem] at hval
            cases hval
        | cons c tl' => cases hval
    · cases hval

lemma mem_keys_of_deps_ne {g : Graph} {n p : String} (h : p ∈ deps g n) : n ∈ keys g := by
  unfold deps at h
  cases hl : g.lookup n with
  | none => rw [hl] at h; cases h
  | some node => exact mem_keys_of_lookup hl

lemma ext_refl (g : Graph) (st : List String × List String) : Ext g st st :=
  ⟨fun _ hx => hx, ⟨[], by simp, by simp⟩, fun x hx => Or.inl hx, id⟩

lemma ext_trans {g : Graph} {s t u : List String × List String}
    (h1 : Ext g s t) (h2 : Ext g t u) : Ext g s u := by
  obtain ⟨m1, ⟨l1, e1, hl1⟩, d1, n1⟩ := h1
  obtain ⟨m2, ⟨l2, e2, hl2⟩, d2, n2⟩ := h2
  refine ⟨m1.trans m2, ⟨l1 ++ l2, by rw [e2, e1, List.append_assoc], ?_⟩,
    ?_, fun h => n2 (n1 h)⟩
  · intro x hx
    rcases List.mem_append.1 hx with hx | hx
    · exact hl1 x hx
    · exact ⟨fun hvx => (hl2 x hx).1 (m1 hvx), (hl2 x hx).2⟩
  · intro x hx
    rcases d2 x hx with hx' | hx'
    · rcases d1 x hx' with hx'' | hx''
      · exact Or.inl hx''
      · right; rw [e2]; exact List.mem_append_left _ hx''
    · exact Or.inr hx'

lemma visitF_ext (g : Graph) :
    ∀ (fuel : Nat) (nid : String) (st : List String × List String),
      nid ∈ keys g → Ext g st (visitF g fuel nid st) := by
  intro fuel
  induction fuel with
  | zero => intro nid st _; exact ext_refl g st
  | succ fuel ih =>
    intro nid st hk
    rcases st with ⟨vis, ord⟩
    rw [visitF]
    by_cases hv : nid ∈ vis
    · rw [if_pos hv]; exact ext_refl g (vis, ord)
    · rw [if_neg hv]
      have hfold : ∀ (l : List String), (∀ p ∈ l, p ∈ keys g) →
          ∀ st₀, Ext g st₀ (l.foldl (fun st p => visitF g fuel p st) st₀) := by
        intro l
        induction l with
        | nil => intro _ st₀; exact ext_refl g st₀
        | cons p l' ihl =>
          intro hpl st₀
          rw [List.foldl_cons]
          exact ext_trans (ih p st₀ (hpl p (by simp)))
            (ihl (fun q hq => hpl q (by simp [hq])) _)
      have h1 := hfold (deps g nid) (fun p hp => deps_subset_keys hp) (nid :: vis, ord)
      obtain ⟨m1, ⟨l1, e1, hl1⟩, d1, n1⟩ := h1
      dsimp only
      refine ⟨?_, ⟨l1 ++ [nid], ?_, ?_⟩, ?_, ?_⟩
      · exact fun x hx => m1 (List.mem_cons_of_mem _ hx)
      · rw [e1, List.append_assoc]
      · intro x hx
        rcases List.mem_append.1 hx with hx | hx
        · exact ⟨fun hvx => (hl1 x hx).1 (List.mem_cons_of_mem _ hvx), (hl1 x hx).2⟩
        · obtain rfl : x = nid := by simpa using hx
          exact ⟨hv, hk⟩
      · intro x hx
        rcases d1 x hx with hx' | hx'
        · rcases List.mem_cons.1 hx' with rfl | hx''
          · right; exact List.mem_append_right _ (by simp)
          · exact Or.inl hx''
        · right; exact List.mem_append_left _ hx'
      · rintro ⟨hnd, hsub⟩
        obtain ⟨nd2, sub2⟩ := n1 ⟨hnd, fun x hx => List.mem_cons_of_mem _ (hsub x hx)⟩
        have hnidout : nid ∉ ((deps g nid).foldl (fun st p => visitF g fuel p st)
            (nid :: vis, ord)).2 := by
          rw [e1]
          intro hmem
          rcases List.mem_append.1 hmem with hmem | hmem
          · exact hv (hsub nid hmem)
          · exact (hl1 nid hmem).1 (List.mem_cons_self _ _)
        constructor
        · rw [List.nodup_append]
          exact ⟨nd2, List.nodup_singleton _, by simpa using hnidout⟩
        · intro x hx
          rcases List.mem_append.1 hx with hx | hx
          · exact sub2 x hx
          · obtain rfl : x = nid := by simpa using hx
            exact m1 (List.mem_cons_self _ _)

lemma foldl_visitF_ext (g : Graph) (fuel : Nat) :
    ∀ (l : List String), (∀ p ∈ l, p ∈ keys g) →
      ∀ st₀, Ext g st₀ (l.foldl (fun st p => visitF g fuel p st) st₀) := by
  intro l
  induction l with
  | nil => intro _ st₀; exact ext_refl g st₀
  | cons p l' ihl =>
    intro hpl st₀
    rw [List.foldl_cons]
    exact ext_trans (visitF_ext g fuel p st₀ (hpl p (by simp)))
      (ihl (fun q hq => hpl q (by simp [hq])) _)

lemma visitF_mem (g : Graph) (fuel : Nat) (nid : String)
    (st : List String × List String) (hf : 1 ≤ fuel) :
    nid ∈ (visitF g fuel nid st).1 := by
  cases fuel with
  | zero => omega
  | succ fuel =>
    rcases st with ⟨vis, ord⟩
    rw [visitF]
    by_cases hv : nid ∈ vis
    · rw [if_pos hv]; exact hv
    · rw [if_neg hv]
      dsimp only
      exact (foldl_visitF_ext g fuel (deps g nid)
        (fun p hp => deps_subset_keys hp) (nid :: vis, ord)).1
        (List.mem_cons_self _ _)

/-- The whole `_topo_sort` emits every key exactly once: the output is a
permutation of the key list. -/
lemma topo_perm_keys (g : Graph) (hnd : (keys g).Nodup) :
    (topoSort g).Perm (keys g) := by
  have main : ∀ (l : List String), (∀ p ∈ l, p ∈ keys g) →
      ∀ st₀, Ext g st₀ (l.foldl (fun st nid => visitF g (g.length + 1) nid st) st₀) ∧
        (∀ k ∈ l, k ∈ (l.foldl (fun st nid => visitF g (g.length + 1) nid st) st₀).1) := by
    intro l
    induction l with
    | nil => intro _ st₀; exact ⟨ext_refl g st₀, by simp⟩
    | cons k l' ihl =>
      intro hkl st₀
      rw [List.foldl_cons]
      obtain ⟨hext', hall'⟩ := ihl (fun q hq => hkl q (by simp [hq]))
        (visitF g (g.length + 1) k st₀)
      refine ⟨ext_trans (visitF_ext g _ k st₀ (hkl k (by simp))) hext', ?_⟩
      intro x hx
      rcases List.mem_cons.1 hx with rfl | hx'
      · exact hext'.1 (visitF_mem g _ x st₀ (by omega))
      · exact hall' x hx'
  obtain ⟨hext, hall⟩ := main (keys g) (fun p hp => hp) ([], [])
  obtain ⟨-, ⟨l1, e1, hl1⟩, d1, n1⟩ := hext
  obtain ⟨hnd2, hsub2⟩ := n1 ⟨List.nodup_nil, by simp⟩
  have hkeys_sub : ∀ k ∈ keys g, k ∈ topoSort g := by
    intro k hk
    rcases d1 k (hall k hk) with hk' | hk'
    · cases hk'
    · exact hk'
  have hsub_keys : ∀ k ∈ topoSort g, k ∈ keys g := by
    intro k hk
    have : k ∈ ([] : List String) ++ l1 := by rw [← e1]; exact hk
    exact (hl1 k (by simpa using this)).2
  exact (List.perm_ext_iff_of_nodup hnd2 hnd).2
    fun a => ⟨fun h => hsub_keys a h, fun h => hkeys_sub a h⟩

/-- Claim C3: `_topo_sort` terminates on every finite workflow graph —
including graphs whose dependency relation is cyclic (the visited-set is
marked on entry, so a cycle cannot recurse forever) — and its output
lists every node of the graph exactly once: it is a permutation of the
key list.  (The fuel supplied by `topoSort` makes termination explicit;
the permutation result holds with no acyclicity assumption.) -/
theorem topo_sort_terminates_every_node_once (g : Graph)
    (hnd : (keys g).Nodup) : (topoSort g).Perm (keys g) :=
  topo_perm_keys g hnd

/-- Witness for C3: a two-node dependency *cycle* is still ordered, each
node appearing exactly once. -/
theorem topo_sort_terminates_every_node_once_witness :
    (topoSort [("P", ⟨some "P", [("x", .arr [.str "Q", .int 0])]⟩),
               ("Q", ⟨some "Q", [("x", .arr [.str "P", .int 0])]⟩)]).Perm
      (keys [("P", ⟨some "P", [("x", .arr [.str "Q", .int 0])]⟩),
             ("Q", ⟨some "Q", [("x", .arr [.str "P", .int 0])]⟩)]) :=
  topo_sort_terminates_every_node_once _ (by decide)

lemma unvisited_mono {g : Graph} {vis vis' : List String} (h : vis ⊆ vis') :
    unvisited g vis' ≤ unvisited g vis := by
  apply Finset.card_le_card
  apply Finset.sdiff_subset_sdiff (Finset.Subset.refl _)
  intro x hx
  exact List.mem_toFinset.2 (h (List.mem_toFinset.1 hx))

lemma unvisited_insert_lt {g : Graph} {vis : List String} {nid : String}
    (hk : nid ∈ keys g) (hv : nid ∉ vis) :
    unvisited g (nid :: vis) < unvisited g vis := by
  have hmem : nid ∈ (keys g).toFinset \ vis.toFinset :=
    Finset.mem_sdiff.2 ⟨List.mem_toFinset.2 hk, fun hx => hv (List.mem_toFinset.1 hx)⟩
  unfold unvisited
  rw [List.toFinset_cons]
  apply Finset.card_lt_card
  rw [Finset.ssubset_def]
  constructor
  · exact Finset.sdiff_subset_sdiff (Finset.Subset.refl _) (Finset.subset_insert _ _)
  · intro hsup
    have := hsup hmem
    rw [Finset.mem_sdiff] at this
    exact this.2 (Finset.mem_insert_self _ _)

lemma unvisited_le_length (g : Graph) (vis : List String) :
    unvisited g vis ≤ g.length := by
  calc unvisited g vis ≤ (keys g).toFinset.card :=
        Finset.card_le_card (Finset.sdiff_subset)
    _ ≤ (keys g).length := List.toFinset_card_le _
    _ = g.length := List.length_map _ _

/-- The core ordering invariant of the depth-first visit: assuming the
dependency relation is acyclic and the call has enough fuel, a completed
call leaves every visited node emitted (or on the caller's stack), keeps
the emitted list inside the visited set, and preserves both closure and
the no-dependency-after-me pairwise property of the emitted list. -/
lemma visitF_ordered (g : Graph) (hac : AcyclicDeps g) :
    ∀ (fuel : Nat) (nid : String) (vis ord stack : List String),
      nid ∈ keys g →
      unvisited g vis < fuel →
      (∀ x ∈ vis, x ∈ ord ∨ x ∈ stack) →
      (∀ s ∈ stack, Relation.ReflTransGen (depRel g) s nid) →
      (∀ x ∈ ord, x ∈ vis) →
      DepClosed g ord → DepPW g ord →
      ((∀ x ∈ (visitF g fuel nid (vis, ord)).1,
          x ∈ (visitF g fuel nid (vis, ord)).2 ∨ x ∈ stack) ∧
       (∀ x ∈ (visitF g fuel nid (vis, ord)).2, x ∈ (visitF g fuel nid (vis, ord)).1) ∧
       DepClosed g (visitF g fuel nid (vis, ord)).2 ∧
       DepPW g (visitF g fuel nid (vis, ord)).2) := by
  intro fuel
  induction fuel with
  | zero => intro nid vis ord stack _ hfuel _ _ _ _ _; omega
  | succ fuel ih =>
    intro nid vis ord stack hk hfuel hH1 hH2 hov hcl hpw
    rw [visitF]
    by_cases hv : nid ∈ vis
    · rw [if_pos hv]
      exact ⟨hH1, hov, hcl, hpw⟩
    · rw [if_neg hv]
      dsimp only
      have hfold : ∀ (l : List String), (∀ p ∈ l, p ∈ deps g nid) →
          ∀ (visₐ ordₐ : List String),
            unvisited g visₐ < fuel →
            (∀ x ∈ visₐ, x ∈ ordₐ ∨ x ∈ nid :: stack) →
            (∀ x ∈ ordₐ, x ∈ visₐ) →
            DepClosed g ordₐ → DepPW g ordₐ →
            ((∀ x ∈ (l.foldl (fun st p => visitF g fuel p st) (visₐ, ordₐ)).1,
                x ∈ (l.foldl (fun st p => visitF g fuel p st) (visₐ, ordₐ)).2 ∨
                  x ∈ nid :: stack) ∧
             (∀ x ∈ (l.foldl (fun st p => visitF g fuel p st) (visₐ, ordₐ)).2,
                x ∈ (l.foldl (fun st p => visitF g fuel p st) (visₐ, ordₐ)).1) ∧
             DepClosed g (l.foldl (fun st p => visitF g fuel p st) (visₐ, ordₐ)).2 ∧
             DepPW g (l.foldl (fun st p => visitF g fuel p st) (visₐ, ordₐ)).2 ∧
             (∀ p ∈ l, p ∈ (l.foldl (fun st p => visitF g fuel p st) (visₐ, ordₐ)).1)) := by
        intro l
        induction l with
        | nil =>
          intro _ visₐ ordₐ _ hH1' hov' hcl' hpw'
          exact ⟨hH1', hov', hcl', hpw', by simp⟩
        | cons p l' ihl =>
          intro hpl visₐ ordₐ hfuel' hH1' hov' hcl' hpw'
          rw [List.foldl_cons]
          have hp : p ∈ deps g nid := hpl p (by simp)
          have hpk : p ∈ keys g := deps_subset_keys hp
          have hH2' : ∀ s ∈ nid :: stack, Relation.ReflTransGen (depRel g) s p := by
            intro s hs
            rcases List.mem_cons.1 hs with rfl | hs'
            · exact Relation.ReflTransGen.single hp
            · exact Relation.ReflTransGen.tail (hH2 s hs') hp
          obtain ⟨c1, c2, c3, c4⟩ :=
            ih p visₐ ordₐ (nid :: stack) hpk hfuel' hH1' hH2' hov' hcl' hpw'
          have hchild_ext := visitF_ext g fuel p (visₐ, ordₐ) hpk
          have hchild_fuel :
              unvisited g (visitF g fuel p (visₐ, ordₐ)).1 < fuel :=
            lt_of_le_of_lt (unvisited_mono hchild_ext.1) hfuel'
          have hpmem : p ∈ (visitF g fuel p (visₐ, ordₐ)).1 :=
            visitF_mem g fuel p (visₐ, ordₐ) (by omega)
          obtain ⟨d1, d2, d3, d4, d5⟩ := ihl (fun q hq => hpl q (by simp [hq]))
            (visitF g fuel p (visₐ, ordₐ)).1 (visitF g fuel p (visₐ, ordₐ)).2
            hchild_fuel c1 c2 c3 c4
          have hrest_ext := foldl_visitF_ext g fuel l'
            (fun q hq => deps_subset_keys (hpl q (by simp [hq])))
            (visitF g fuel p (visₐ, ordₐ))
          refine ⟨d1, d2, d3, d4, ?_⟩
          intro q hq
          rcases List.mem_cons.1 hq with rfl | hq'
          · exact hrest_ext.1 hpmem
          · exact d5 q hq'
      have hvfuel : unvisited g (nid :: vis) < fuel :=
        lt_of_lt_of_le (unvisited_insert_lt hk hv) (by omega)
      have hH1' : ∀ x ∈ nid :: vis, x ∈ ord ∨ x ∈ nid :: stack := by
        intro x hx
        rcases List.mem_cons.1 hx with rfl | hx'
        · exact Or.inr (List.mem_cons_self _ _)
        · rcases hH1 x hx' with h | h
          · exact Or.inl h
          · exact Or.inr (List.mem_cons_of_mem _ h)
      obtain ⟨s1, s2, s3, s4, s5⟩ := hfold (deps g nid) (fun p hp => hp) (nid :: vis) ord
        hvfuel hH1' (fun x hx => List.mem_cons_of_mem _ (hov x hx)) hcl hpw
      have hext := foldl_visitF_ext g fuel (deps g nid)
        (fun p hp => deps_subset_keys hp) (nid :: vis, ord)
      obtain ⟨m1, ⟨l1, e1, hl1⟩, -, -⟩ := hext
      have hnid_out :
          nid ∉ ((deps g nid).foldl (fun st p => visitF g fuel p st) (nid :: vis, ord)).2 := by
        rw [e1]
        intro hmem
        rcases List.mem_append.1 hmem with hmem | hmem
        · exact hv (hov nid hmem)
        · exact (hl1 nid hmem).1 (List.mem_cons_self _ _)
      have hdeps_out : ∀ p ∈ deps g nid,
          p ∈ ((deps g nid).foldl (fun st p => visitF g fuel p st) (nid :: vis, ord)).2 := by
        intro p hp
        rcases s1 p (s5 p hp) with h | h
        · exact h
        · rcases List.mem_cons.1 h with rfl | hstk
          · exact absurd (Relation.TransGen.single hp) (hac p)
          · exact absurd (Relation.TransGen.trans_left
              (Relation.TransGen.single hp) (hH2 p hstk)) (hac nid)
      refine ⟨?_, ?_, ?_, ?_⟩
      · intro x hx
        rcases s1 x hx with h | h
        · exact Or.inl (List.mem_append_left _ h)
        · rcases List.mem_cons.1 h with rfl | hstk
          · exact Or.inl (List.mem_append_right _ (by simp))
          · exact Or.inr hstk
      · intro x hx
        rcases List.mem_append.1 hx with h | h
        · exact s2 x h
        · obtain rfl : x = nid := by simpa using h
          exact m1 (List.mem_cons_self _ _)
      · intro a ha p hp
        rcases List.mem_append.1 ha with h | h
        · exact List.mem_append_left _ (s3 a h p hp)
        · obtain rfl : a = nid := by simpa using h
          exact List.mem_append_left _ (hdeps_out p hp)
      · rw [DepPW, List.pairwise_append]
        refine ⟨s4, List.pairwise_singleton _ _, ?_⟩
        intro a ha b hb
        obtain rfl : b = nid := by simpa using hb
        intro hdep
        exact hnid_out (s3 a ha b hdep)

/-- If some ranking strictly decreases along every dependency edge, the
dependency relation is acyclic. -/
lemma acyclic_of_rank (g : Graph) (rk : String → Nat)
    (h : ∀ a b, b ∈ deps g a → rk b < rk a) : AcyclicDeps g := by
  intro n hcyc
  have key : ∀ a b, Relation.TransGen (depRel g) a b → rk b < rk a := by
    intro a b htg
    induction htg with
    | single hr => exact h _ _ hr
    | tail _ hr ih => exact lt_trans (h _ _ hr) ih
  exact lt_irrefl _ (key n n hcyc)

/-- Claim C2 (amended): for every workflow graph whose dependency
relation is acyclic, `_topo_sort` places each node strictly after all of
its dependencies (a dependency being a 2-element `[parent, index]` input
whose stringified parent is a key of the graph — dangling parents
contribute no edge), and for every graph — cyclic or not — the output's
length equals the node count. -/
theorem topo_sort_respects_deps (g : Graph) (hnd : (keys g).Nodup)
    (hac : AcyclicDeps g) :
    (∀ n ∈ keys g, ∀ p ∈ deps g n,
      (topoSort g).indexOf p < (topoSort g).indexOf n) ∧
    (topoSort g).length = g.length := by
  have main : ∀ (l : List String), (∀ p ∈ l, p ∈ keys g) →
      ∀ (vis ord : List String),
        (∀ x ∈ vis, x ∈ ord) →
        (∀ x ∈ ord, x ∈ vis) →
        DepClosed g ord → DepPW g ord →
        ((∀ x ∈ (l.foldl (fun st nid => visitF g (g.length + 1) nid st) (vis, ord)).1,
            x ∈ (l.foldl (fun st nid => visitF g (g.length + 1) nid st) (vis, ord)).2) ∧
         (∀ x ∈ (l.foldl (fun st nid => visitF g (g.length + 1) nid st) (vis, ord)).2,
            x ∈ (l.foldl (fun st nid => visitF g (g.length + 1) nid st) (vis, ord)).1) ∧
         DepClosed g (l.foldl (fun st nid => visitF g (g.length + 1) nid st) (vis, ord)).2 ∧
         DepPW g (l.foldl (fun st nid => visitF g (g.length + 1) nid st) (vis, ord)).2) := by
    intro l
    induction l with
    | nil => intro _ vis ord h1 h2 h3 h4; exact ⟨h1, h2, h3, h4⟩
    | cons k l' ihl =>
      intro hkl vis ord h1 h2 h3 h4
      rw [List.foldl_cons]
      obtain ⟨c1, c2, c3, c4⟩ := visitF_ordered g hac (g.length + 1) k vis ord []
        (hkl k (by simp)) (by have := unvisited_le_length g vis; omega)
        (fun x hx => Or.inl (h1 x hx)) (by simp) h2 h3 h4
      exact ihl (fun q hq => hkl q (by simp [hq])) _ _
        (fun x hx => (c1 x hx).resolve_right (by simp)) c2 c3 c4
  obtain ⟨f1, f2, f3, f4⟩ := main (keys g) (fun p hp => hp) [] []
    (by simp) (by simp) (by intro a ha; cases ha) List.Pairwise.nil
  have hperm := topo_perm_keys g hnd
  have hlen : (topoSort g).length = g.length := by
    rw [hperm.length_eq]
    exact List.length_map _ _
  refine ⟨?_, hlen⟩
  intro n hn p hpdep
  have hpw : DepPW g (topoSort g) := f4
  have hnmem : n ∈ topoSort g := hperm.mem_iff.2 hn
  have hpmem : p ∈ topoSort g := hperm.mem_iff.2 (deps_subset_keys hpdep)
  have hi : (topoSort g).indexOf n < (topoSort g).length :=
    List.indexOf_lt_length.2 hnmem
  have hj : (topoSort g).indexOf p < (topoSort g).length :=
    List.indexOf_lt_length.2 hpmem
  have hgi : (topoSort g).get ⟨(topoSort g).indexOf n, hi⟩ = n := List.indexOf_get hi
  have hgj : (topoSort g).get ⟨(topoSort g).indexOf p, hj⟩ = p := List.indexOf_get hj
  rcases lt_trichotomy ((topoSort g).indexOf p) ((topoSort g).indexOf n) with h | h | h
  · exact h
  · exfalso
    have hnp : n = p := by
      rw [← hgi, ← hgj]
      simp [h]
    exact hac n (Relation.TransGen.single (show depRel g n n from hnp ▸ hpdep))
  · exfalso
    have hpair := List.pairwise_iff_getElem.1 hpw
      ((topoSort g).indexOf n) ((topoSort g).indexOf p) hi hj h
    apply hpair
    have hgi' : (topoSort g)[(topoSort g).indexOf n] = n := hgi
    have hgj' : (topoSort g)[(topoSort g).indexOf p] = p := hgj
    rw [hgi', hgj']
    exact hpdep

/-- Claim C2 counterexample: on a graph whose two nodes depend on each
other, the traversal terminates but necessarily emits some node before
its dependency — here `Q` comes out before its dependency `P`. -/
theorem topo_sort_respects_deps_counterexample :
    "Q" ∈ keys [("P", ⟨some "P", [("x", .arr [.str "Q", .int 0])]⟩),
                ("Q", ⟨some "Q", [("x", .arr [.str "P", .int 0])]⟩)] ∧
    "P" ∈ deps [("P", ⟨some "P", [("x", .arr [.str "Q", .int 0])]⟩),
                ("Q", ⟨some "Q", [("x", .arr [.str "P", .int 0])]⟩)] "Q" ∧
    ¬ ((topoSort [("P", ⟨some "P", [("x", .arr [.str "Q", .int 0])]⟩),
                  ("Q", ⟨some "Q", [("x", .arr [.str "P", .int 0])]⟩)]).indexOf "P"
       < (topoSort [("P", ⟨some "P", [("x", .arr [.str "Q", .int 0])]⟩),
                    ("Q", ⟨some "Q", [("x", .arr [.str "P", .int 0])]⟩)]).indexOf "Q") := by
  decide

/-- Witness for C2 (amended): on the two-node chain, the dependency `A`
of `B` is placed first and the output covers both nodes. -/
theorem topo_sort_respects_deps_witness :
    (topoSort demoGraph).indexOf "A" < (topoSort demoGraph).indexOf "B" ∧
    (topoSort demoGraph).length = demoGraph.length := by
  have hrk : ∀ a b, b ∈ deps demoGraph a →
      (fun s => if s = "B" then 1 else 0) b < (fun s => if s = "B" then 1 else 0) a := by
    intro a b hb
    have ha : a ∈ keys demoGraph := mem_keys_of_deps_ne hb
    have ha' : a = "B" ∨ a = "A" := by simpa [demoGraph, keys] using ha
    rcases ha' with rfl | rfl
    · have hbv : b ∈ deps demoGraph "B" := hb
      have : deps demoGraph "B" = ["A"] := by decide
      rw [this] at hbv
      obtain rfl : b = "A" := by simpa using hbv
      decide
    · have : deps demoGraph "A" = [] := by decide
      rw [this] at hb
      cases hb
  have h := topo_sort_respects_deps demoGraph (by decide)
    (acyclic_of_rank demoGraph _ hrk)
  exact ⟨h.1 "B" (by decide) "A" (by decide), h.2⟩

end CozyApp
